import Mathlib

/-!
# Verification of a trace-driven set-associative cache simulator

Shallow embedding of `src/main.py` (class `Cache`): address decoding,
per-set lookup, Random/FIFO/LRU replacement, 3C miss classification and
the aggregate counters, together with proofs of the specified properties.

Modelling conventions:
* Python machine-independent `int` counters become `Nat` (they are only
  ever incremented from 0).
* The Python `set` `seen_tags` becomes a `Finset (Nat × Nat)`.
* `random.randint(0, assoc - 1)` is modelled by an injected oracle
  `rand : Nat → Nat`, sampled at the current access number and reduced
  `% assoc` so that the drawn victim index lies in `[0, assoc)`; every
  in-range victim sequence is realised by some oracle.
* Python raises `IndexError` when `self.cache[index]` is out of range
  (possible when `nsets` is not a power of two); the step function
  therefore returns `Option CacheState`, `none` being the raised error.
-/

namespace CacheSim

/-- Replacement policy tag: Python strings 'R', 'F', 'L' after `.upper()`. -/
inductive Policy where
  | R : Policy
  | F : Policy
  | L : Policy
deriving DecidableEq, Repr

/-- One cache line: the Python entry list `[tag, valid, timestamp/age]`. -/
structure Line where
  tag : Nat
  valid : Bool
  order_key : Nat
deriving DecidableEq, Repr

/-- Simulator configuration: the validated command-line parameters
`nsets`, `bsize`, `assoc`, `subst`. -/
structure Cfg where
  nsets : Nat
  bsize : Nat
  assoc : Nat
  subst : Policy
deriving DecidableEq, Repr

/-- The validation performed by `main`: `nsets`, `bsize`, `assoc` positive
(and the policy is one of R/F/L, enforced here by the `Policy` type). -/
abbrev Cfg.Valid (c : Cfg) : Prop := 0 < c.nsets ∧ 0 < c.bsize ∧ 0 < c.assoc

/-- Full mutable state of the `Cache` object. -/
structure CacheState where
  sets : List (List Line)
  total_accesses : Nat
  hits : Nat
  misses : Nat
  compulsory_misses : Nat
  capacity_misses : Nat
  conflict_misses : Nat
  seen_tags : Finset (Nat × Nat)
deriving DecidableEq

/-- `Cache.__init__`: `nsets` empty sets and all counters zero. -/
def initState (cfg : Cfg) : CacheState :=
  { sets := List.replicate cfg.nsets []
    total_accesses := 0
    hits := 0
    misses := 0
    compulsory_misses := 0
    capacity_misses := 0
    conflict_misses := 0
    seen_tags := ∅ }

/-- Fuel-indexed helper so that Python's `int.bit_length` is structurally
recursive (kernel-reducible). -/
def bitLenAux : Nat → Nat → Nat
  | 0, _ => 0
  | fuel + 1, n => if n = 0 then 0 else bitLenAux fuel (n / 2) + 1

/-- Python `n.bit_length()`: number of bits needed to represent `n`;
`0` for `n = 0`. -/
def bit_length (n : Nat) : Nat := bitLenAux n n

/-- `Cache.log2`: `(x - 1).bit_length()` (ceiling log₂ for `x ≥ 1`,
with `log2 1 = 0`). Python `1 - 1 = 0` matches Nat subtraction here. -/
def log2 (x : Nat) : Nat := bit_length (x - 1)

/-- `self.offset_bits` from `calculate_address_fields`. -/
def Cfg.offset_bits (c : Cfg) : Nat := log2 c.bsize

/-- `self.index_bits` from `calculate_address_fields`. -/
def Cfg.index_bits (c : Cfg) : Nat := log2 c.nsets

/-- `Cache.get_address_components`: returns `(tag, index)` of a 32-bit
address using the source's shift/mask arithmetic. -/
def get_address_components (c : Cfg) (address : Nat) : Nat × Nat :=
  let index_mask := (1 <<< c.index_bits) - 1
  let index := (address >>> c.offset_bits) &&& index_mask
  let tag := address >>> (c.offset_bits + c.index_bits)
  (tag, index)

/-- The hit scan of `access_cache`: find the first entry with matching tag
and valid bit set, returning `(entries before it, the entry, entries
after it)`, or `none` on a miss. -/
def hitSplit (tag : Nat) : List Line → Option (List Line × Line × List Line)
  | [] => none
  | e :: rest =>
    if e.tag = tag ∧ e.valid then some ([], e, rest)
    else
      match hitSplit tag rest with
      | none => none
      | some (p, f, q) => some (e :: p, f, q)

/-- The LRU victim scan loop body: `for i, entry in enumerate(set_content[1:], 1)`
keeping the first index attaining the minimal timestamp (strict `<`). -/
def lruScan : List Line → Nat → Nat → Nat → Nat
  | [], _, bestIdx, _ => bestIdx
  | e :: rest, i, bestIdx, bestKey =>
    if e.order_key < bestKey then lruScan rest (i + 1) i e.order_key
    else lruScan rest (i + 1) bestIdx bestKey

/-- Victim position chosen by the LRU branch of `access_cache` on a
non-empty set (the source indexes `set_content[0]`, so the Python code
requires non-emptiness; `0` here is a junk value for `[]`). -/
def lruVictim : List Line → Nat
  | [] => 0
  | e :: rest => lruScan rest 1 0 e.order_key

/-- The `tag` component of `get_address_components`. -/
def tagOf (c : Cfg) (address : Nat) : Nat := (get_address_components c address).1

/-- The `index` component of `get_address_components`. -/
def idxOf (c : Cfg) (address : Nat) : Nat := (get_address_components c address).2

/-- The hit branch of `access_cache` (`n` is the already-incremented
`self.total_accesses`): bump the LRU timestamp in place for `'L'`, move the
entry to the end for `'F'`, leave the set unchanged for `'R'`. -/
def touchSet (pol : Policy) (n : Nat) (p : List Line) (e : Line)
    (q : List Line) : List Line :=
  match pol with
  | .L => p ++ ({ e with order_key := n } :: q)
  | .F => (p ++ q) ++ [e]
  | .R => p ++ (e :: q)

/-- Increment of `compulsory_misses` chosen by the classification chain. -/
def compInc (is_compulsory set_full cache_full : Bool) : Nat :=
  if is_compulsory then 1
  else if set_full && cache_full then 0
  else if set_full then 0
  else 1

/-- Increment of `capacity_misses` chosen by the classification chain. -/
def capInc (is_compulsory set_full cache_full : Bool) : Nat :=
  if is_compulsory then 0 else if set_full && cache_full then 1 else 0

/-- Increment of `conflict_misses` chosen by the classification chain. -/
def confInc (is_compulsory set_full cache_full : Bool) : Nat :=
  if is_compulsory then 0
  else if set_full && cache_full then 0
  else if set_full then 1
  else 0

/-- The "Add new entry" block of `access_cache`: append when the set is not
full, otherwise overwrite the victim chosen by the active policy. -/
def installSet (pol : Policy) (rand : Nat → Nat) (assoc n tag : Nat)
    (set_content : List Line) (set_full : Bool) : List Line :=
  let new_entry : Line := { tag := tag, valid := true, order_key := n }
  if ¬ set_full then set_content ++ [new_entry]
  else
    match pol with
    | .R => set_content.set (rand n % assoc) new_entry
    | .F => set_content.tail ++ [new_entry]
    | .L => set_content.set (lruVictim set_content) new_entry

/-- `Cache.access_cache` for one address.  `rand` is the injected
randomness oracle for the `'R'` policy.  Returns `none` exactly when
Python would raise `IndexError` on `self.cache[index]`. -/
def access_cache (cfg : Cfg) (rand : Nat → Nat) (st : CacheState)
    (address : Nat) : Option CacheState :=
  let n := st.total_accesses + 1
  let tag := tagOf cfg address
  let index := idxOf cfg address
  match st.sets[index]? with
  | none => none
  | some set_content =>
    match hitSplit tag set_content with
    | some (p, e, q) =>
      some { st with
              sets := st.sets.set index (touchSet cfg.subst n p e q)
              total_accesses := n
              hits := st.hits + 1 }
    | none =>
      let is_compulsory : Bool := decide ((tag, index) ∉ st.seen_tags)
      let set_full : Bool := decide (cfg.assoc ≤ set_content.length)
      let cache_full : Bool :=
        decide (cfg.nsets * cfg.assoc ≤ (st.sets.map List.length).sum)
      some { sets := st.sets.set index
                (installSet cfg.subst rand cfg.assoc n tag set_content set_full)
             total_accesses := n
             hits := st.hits
             misses := st.misses + 1
             compulsory_misses :=
               st.compulsory_misses + compInc is_compulsory set_full cache_full
             capacity_misses :=
               st.capacity_misses + capInc is_compulsory set_full cache_full
             conflict_misses :=
               st.conflict_misses + confInc is_compulsory set_full cache_full
             seen_tags := insert (tag, index) st.seen_tags }

/-- Replay a trace from a given state (the `while` loop of `main`). -/
def runFrom (cfg : Cfg) (rand : Nat → Nat) :
    CacheState → List Nat → Option CacheState
  | st, [] => some st
  | st, a :: rest =>
    match access_cache cfg rand st a with
    | none => none
    | some st' => runFrom cfg rand st' rest

/-- Replay a trace from the freshly constructed cache. -/
def run (cfg : Cfg) (rand : Nat → Nat) (trace : List Nat) :
    Option CacheState := runFrom cfg rand (initState cfg) trace

/-- The six aggregate counters, for stating facts about completed runs. -/
def counters (st : CacheState) : Nat × Nat × Nat × Nat × Nat × Nat :=
  (st.total_accesses, st.hits, st.misses,
   st.compulsory_misses, st.capacity_misses, st.conflict_misses)

/-- Tags stored in one set, in list order. -/
def tagsOf (l : List Line) : List Nat := l.map Line.tag

/-- The set of decoded (tag, index) pairs occurring in a trace. -/
def decodedPairs (cfg : Cfg) (tr : List Nat) : Finset (Nat × Nat) :=
  (tr.map fun a => (tagOf cfg a, idxOf cfg a)).toFinset

/-- `order_key` of the entry at position `j` (junk entry when out of range). -/
def keyAt (l : List Line) (j : Nat) : Nat := (l.getD j ⟨0, false, 0⟩).order_key

/-- Specification of the LRU victim scan: the chosen position is in range,
attains the minimal `order_key`, and is the first position attaining it. -/
def lruVictimSpec (sc : List Line) : Prop :=
  lruVictim sc < sc.length ∧
  (∀ j, j < sc.length → keyAt sc (lruVictim sc) ≤ keyAt sc j) ∧
  (∀ j, j < lruVictim sc → keyAt sc (lruVictim sc) < keyAt sc j)

/-- Reachability invariant of a cache state: the set array has `nsets`
sets; every set respects the associativity bound, stores only valid
entries and pairwise-distinct tags; every stored tag was recorded as a
missed pair; every recorded pair is either still resident or its set is
full; and `compulsory_misses` counts exactly the recorded pairs. -/
structure Inv (cfg : Cfg) (st : CacheState) : Prop where
  sets_len : st.sets.length = cfg.nsets
  set_bound : ∀ sc ∈ st.sets, sc.length ≤ cfg.assoc
  set_valid : ∀ sc ∈ st.sets, ∀ e ∈ sc, e.valid = true
  set_nodup : ∀ sc ∈ st.sets, (tagsOf sc).Nodup
  tags_seen : ∀ i sc, st.sets[i]? = some sc → ∀ e ∈ sc, (e.tag, i) ∈ st.seen_tags
  seen_resident : ∀ t i sc, (t, i) ∈ st.seen_tags → st.sets[i]? = some sc →
    t ∈ tagsOf sc ∨ cfg.assoc ≤ sc.length
  comp_card : st.compulsory_misses = st.seen_tags.card

/-- Correspondence between one set under policy 'F' and the same set under
policy 'L' after the same accesses: some strictly-key-sorted permutation
`s` of the L-side set lists the same tags, in the same order, as the F-side
set (whose list order is its recency order); all keys are bounded by the
access counter `n`, all entries on both sides are valid, and the common
tag sequence is duplicate-free. -/
def SetRel (n : Nat) (f l : List Line) : Prop :=
  ∃ s : List Line, List.Perm s l ∧ tagsOf s = tagsOf f ∧
    List.Pairwise (fun x y => x < y) (s.map Line.order_key) ∧
    (∀ e ∈ s, e.order_key ≤ n) ∧
    (∀ e ∈ f, e.valid = true) ∧
    (∀ e ∈ l, e.valid = true) ∧
    (tagsOf f).Nodup

/-- Bisimulation relation between the state of the 'F'-policy run and the
state of the 'L'-policy run of the same trace: equal counters, equal
recorded pairs, and related sets at every index. -/
structure StateRel (stF stL : CacheState) : Prop where
  total_eq : stF.total_accesses = stL.total_accesses
  hits_eq : stF.hits = stL.hits
  misses_eq : stF.misses = stL.misses
  comp_eq : stF.compulsory_misses = stL.compulsory_misses
  cap_eq : stF.capacity_misses = stL.capacity_misses
  conf_eq : stF.conflict_misses = stL.conflict_misses
  seen_eq : stF.seen_tags = stL.seen_tags
  len_eq : stF.sets.length = stL.sets.length
  rel : ∀ j : Nat, (stF.sets[j]? = none ∧ stL.sets[j]? = none) ∨
    (∃ f l, stF.sets[j]? = some f ∧ stL.sets[j]? = some l ∧
      SetRel stL.total_accesses f l)

-- sanity checks (concrete evaluation of the embedding)
example : bit_length 0 = 0 := by decide
example : bit_length 1 = 1 := by decide
example : bit_length 7 = 3 := by decide
example : get_address_components ⟨4, 8, 2, .L⟩ 0b1011011 = (2, 3) := by decide
example :
    (run ⟨1, 1, 2, .L⟩ (fun _ => 0) [0, 1, 0, 2]).map counters =
      some (4, 1, 3, 3, 0, 0) := by decide
example :
    (run ⟨1, 1, 2, .L⟩ (fun _ => 0) [0, 1, 0, 2]).map
      (fun st => st.sets.map tagsOf) = some [[0, 2]] := by decide
example :
    (run ⟨1, 1, 2, .F⟩ (fun _ => 0) [0, 1, 0, 2]).map
      (fun st => st.sets.map tagsOf) = some [[0, 2]] := by decide
example :
    (run ⟨1, 1, 2, .F⟩ (fun _ => 0) [0, 1, 2]).map
      (fun st => st.sets.map tagsOf) = some [[1, 2]] := by decide
example : (run ⟨3, 1, 1, .L⟩ (fun _ => 0) [3]) = none := by decide

/-! ## Unfolding equations for one access -/

/-- The state produced by the miss branch of `access_cache`. -/
def missState (cfg : Cfg) (rand : Nat → Nat) (st : CacheState)
    (tag index : Nat) (set_content : List Line) : CacheState :=
  let n := st.total_accesses + 1
  let is_compulsory : Bool := decide ((tag, index) ∉ st.seen_tags)
  let set_full : Bool := decide (cfg.assoc ≤ set_content.length)
  let cache_full : Bool :=
    decide (cfg.nsets * cfg.assoc ≤ (st.sets.map List.length).sum)
  { sets := st.sets.set index
      (installSet cfg.subst rand cfg.assoc n tag set_content set_full)
    total_accesses := n
    hits := st.hits
    misses := st.misses + 1
    compulsory_misses :=
      st.compulsory_misses + compInc is_compulsory set_full cache_full
    capacity_misses :=
      st.capacity_misses + capInc is_compulsory set_full cache_full
    conflict_misses :=
      st.conflict_misses + confInc is_compulsory set_full cache_full
    seen_tags := insert (tag, index) st.seen_tags }

/-- The state produced by the hit branch of `access_cache`. -/
def hitState (cfg : Cfg) (st : CacheState) (index : Nat)
    (p : List Line) (e : Line) (q : List Line) : CacheState :=
  { st with
      sets := st.sets.set index (touchSet cfg.subst (st.total_accesses + 1) p e q)
      total_accesses := st.total_accesses + 1
      hits := st.hits + 1 }

theorem access_cache_none (cfg : Cfg) (rand : Nat → Nat) (st : CacheState)
    (a : Nat) (h : st.sets[idxOf cfg a]? = none) :
    access_cache cfg rand st a = none := by
  simp only [access_cache, h]

theorem access_cache_hit (cfg : Cfg) (rand : Nat → Nat) (st : CacheState)
    (a : Nat) (sc : List Line) (p : List Line) (e : Line) (q : List Line)
    (hsc : st.sets[idxOf cfg a]? = some sc)
    (hsplit : hitSplit (tagOf cfg a) sc = some (p, e, q)) :
    access_cache cfg rand st a = some (hitState cfg st (idxOf cfg a) p e q) := by
  simp only [access_cache, hsc, hsplit]
  rfl

theorem access_cache_miss (cfg : Cfg) (rand : Nat → Nat) (st : CacheState)
    (a : Nat) (sc : List Line)
    (hsc : st.sets[idxOf cfg a]? = some sc)
    (hsplit : hitSplit (tagOf cfg a) sc = none) :
    access_cache cfg rand st a =
      some (missState cfg rand st (tagOf cfg a) (idxOf cfg a) sc) := by
  simp only [access_cache, hsc, hsplit]
  rfl

/-- Every successful access is either a hit step or a miss step. -/
theorem access_cache_cases (cfg : Cfg) (rand : Nat → Nat) (st : CacheState)
    (a : Nat) (st' : CacheState)
    (h : access_cache cfg rand st a = some st') :
    ∃ sc, st.sets[idxOf cfg a]? = some sc ∧
      ((∃ p e q, hitSplit (tagOf cfg a) sc = some (p, e, q) ∧
          st' = hitState cfg st (idxOf cfg a) p e q) ∨
       (hitSplit (tagOf cfg a) sc = none ∧
          st' = missState cfg rand st (tagOf cfg a) (idxOf cfg a) sc)) := by
  cases hsc : st.sets[idxOf cfg a]? with
  | none => rw [access_cache_none cfg rand st a hsc] at h; cases h
  | some sc =>
    refine ⟨sc, rfl, ?_⟩
    cases hs : hitSplit (tagOf cfg a) sc with
    | none =>
      rw [access_cache_miss cfg rand st a sc hsc hs] at h
      exact Or.inr ⟨rfl, (Option.some.injEq _ _ ▸ h).symm⟩
    | some peq =>
      obtain ⟨p, e, q⟩ := peq
      rw [access_cache_hit cfg rand st a sc p e q hsc hs] at h
      exact Or.inl ⟨p, e, q, rfl, (Option.some.injEq _ _ ▸ h).symm⟩

/-! ## Properties of the hit scan, the LRU scan and the install step -/

theorem hitSplit_some_spec (tag : Nat) :
    ∀ sc p e q, hitSplit tag sc = some (p, e, q) →
      sc = p ++ e :: q ∧ e.tag = tag ∧ e.valid = true ∧
        ∀ f ∈ p, ¬(f.tag = tag ∧ f.valid = true) := by
  intro sc
  induction sc with
  | nil => intro p e q h; simp [hitSplit] at h
  | cons x rest ih =>
    intro p e q h
    simp only [hitSplit] at h
    split at h
    · rename_i hx
      simp only [Option.some.injEq, Prod.mk.injEq] at h
      obtain ⟨rfl, rfl, rfl⟩ := h
      exact ⟨rfl, hx.1, hx.2, by simp⟩
    · rename_i hx
      cases hr : hitSplit tag rest with
      | none => rw [hr] at h; simp at h
      | some v =>
        obtain ⟨p', f, q'⟩ := v
        rw [hr] at h
        simp only [Option.some.injEq, Prod.mk.injEq] at h
        obtain ⟨rfl, rfl, rfl⟩ := h
        obtain ⟨hsc, hft, hfv, hp⟩ := ih p' f q' hr
        refine ⟨by rw [hsc]; rfl, hft, hfv, ?_⟩
        intro g hg
        rcases List.mem_cons.mp hg with rfl | hg'
        · exact hx
        · exact hp g hg'

theorem hitSplit_none_iff (tag : Nat) (sc : List Line) :
    hitSplit tag sc = none ↔ ∀ e ∈ sc, ¬(e.tag = tag ∧ e.valid = true) := by
  induction sc with
  | nil => simp [hitSplit]
  | cons x rest ih =>
    simp only [hitSplit]
    split
    · rename_i hx
      simp only [reduceCtorEq, false_iff, not_forall]
      exact ⟨x, List.mem_cons_self x rest, not_not_intro hx⟩
    · rename_i hx
      cases hr : hitSplit tag rest with
      | none =>
        simp only [true_iff]
        intro e he
        rcases List.mem_cons.mp he with rfl | h'
        · exact hx
        · exact (ih.mp hr) e h'
      | some v =>
        obtain ⟨p, f, q⟩ := v
        obtain ⟨hsc, hft, hfv, _⟩ := hitSplit_some_spec tag rest p f q hr
        simp only [reduceCtorEq, false_iff, not_forall]
        exact ⟨f, List.mem_cons_of_mem _ (by rw [hsc]; simp),
          not_not_intro ⟨hft, hfv⟩⟩

/-- On a miss into a set of valid entries, the decoded tag is not resident. -/
theorem miss_not_mem_tags (tag : Nat) (sc : List Line)
    (h : hitSplit tag sc = none) (hval : ∀ e ∈ sc, e.valid = true) :
    tag ∉ tagsOf sc := by
  intro hmem
  obtain ⟨e, he, ht⟩ := List.mem_map.mp hmem
  exact (hitSplit_none_iff tag sc).mp h e he ⟨ht, hval e he⟩

theorem lruScan_lt (rest : List Line) :
    ∀ i b k, b < i → lruScan rest i b k < i + rest.length := by
  induction rest with
  | nil => intro i b k h; simp only [lruScan, List.length_nil]; omega
  | cons e rest ih =>
    intro i b k h
    simp only [lruScan, List.length_cons]
    split
    · have := ih (i + 1) i e.order_key (by omega)
      omega
    · have := ih (i + 1) b k (by omega)
      omega

theorem lruVictim_lt (sc : List Line) (h : sc ≠ []) :
    lruVictim sc < sc.length := by
  cases sc with
  | nil => exact absurd rfl h
  | cons e rest =>
    have := lruScan_lt rest 1 0 e.order_key (by omega)
    simp only [lruVictim, List.length_cons]
    omega

theorem nodup_set_of_not_mem {α : Type} (x : α) :
    ∀ (l : List α) (i : Nat), l.Nodup → x ∉ l → (l.set i x).Nodup := by
  intro l
  induction l with
  | nil => intro i _ _; simp
  | cons y rest ih =>
    intro i hnd hx
    obtain ⟨hy, hrest⟩ := List.nodup_cons.mp hnd
    cases i with
    | zero =>
      rw [List.set_cons_zero, List.nodup_cons]
      exact ⟨fun h => hx (List.mem_cons_of_mem _ h), hrest⟩
    | succ i =>
      rw [List.set_cons_succ, List.nodup_cons]
      refine ⟨?_, ih i hrest (fun h => hx (List.mem_cons_of_mem _ h))⟩
      intro hmem
      rcases List.mem_or_eq_of_mem_set hmem with h' | rfl
      · exact hy h'
      · exact hx (List.mem_cons_self _ _)

theorem tagsOf_touchSet (pol : Policy) (n : Nat) (p : List Line) (e : Line)
    (q : List Line) :
    List.Perm (tagsOf (touchSet pol n p e q)) (tagsOf (p ++ e :: q)) := by
  cases pol with
  | R => exact List.Perm.refl _
  | F =>
    simp only [touchSet, tagsOf, List.map_append, List.map_cons,
      List.map_nil]
    exact List.Perm.trans (List.perm_append_singleton _ _)
      List.perm_middle.symm
  | L =>
    simp only [touchSet, tagsOf, List.map_append, List.map_cons]
    exact List.Perm.refl _

theorem length_touchSet (pol : Policy) (n : Nat) (p : List Line) (e : Line)
    (q : List Line) :
    (touchSet pol n p e q).length = (p ++ e :: q).length := by
  cases pol with
  | R => rfl
  | F => simp only [touchSet, List.length_append, List.length_cons,
      List.length_nil]; omega
  | L => simp [touchSet]

theorem valid_touchSet (pol : Policy) (n : Nat) (p : List Line) (e : Line)
    (q : List Line) (h : ∀ f ∈ p ++ e :: q, f.valid = true) :
    ∀ f ∈ touchSet pol n p e q, f.valid = true := by
  cases pol with
  | R => exact h
  | F =>
    intro f hf
    rcases List.mem_append.mp hf with hf' | hf'
    · rcases List.mem_append.mp hf' with h1 | h2
      · exact h f (List.mem_append_left _ h1)
      · exact h f (List.mem_append_right _ (List.mem_cons_of_mem _ h2))
    · obtain rfl := List.mem_singleton.mp hf'
      exact h f (List.mem_append_right _ (List.mem_cons_self _ _))
  | L =>
    intro f hf
    rcases List.mem_append.mp hf with h1 | h2
    · exact h f (List.mem_append_left _ h1)
    · rcases List.mem_cons.mp h2 with rfl | h3
      · simpa using h e (List.mem_append_right _ (List.mem_cons_self _ _))
      · exact h f (List.mem_append_right _ (List.mem_cons_of_mem _ h3))

/-- Combined effect of the "Add new entry" block on a set that respects
the associativity bound (with `set_full` computed as in the source). -/
theorem installSet_spec (pol : Policy) (rand : Nat → Nat)
    (assoc n tag : Nat) (sc : List Line) (hpos : 0 < assoc)
    (hlen : sc.length ≤ assoc) :
    (installSet pol rand assoc n tag sc
        (decide (assoc ≤ sc.length))).length ≤ assoc ∧
    sc.length ≤ (installSet pol rand assoc n tag sc
        (decide (assoc ≤ sc.length))).length ∧
    (assoc ≤ sc.length → (installSet pol rand assoc n tag sc
        (decide (assoc ≤ sc.length))).length = sc.length) ∧
    (∀ e ∈ installSet pol rand assoc n tag sc (decide (assoc ≤ sc.length)),
      e ∈ sc ∨ e = ⟨tag, true, n⟩) ∧
    (⟨tag, true, n⟩ : Line) ∈
      installSet pol rand assoc n tag sc (decide (assoc ≤ sc.length)) ∧
    (¬ assoc ≤ sc.length → installSet pol rand assoc n tag sc
        (decide (assoc ≤ sc.length)) = sc ++ [⟨tag, true, n⟩]) ∧
    (tag ∉ tagsOf sc → (tagsOf sc).Nodup →
      (tagsOf (installSet pol rand assoc n tag sc
        (decide (assoc ≤ sc.length)))).Nodup) := by
  by_cases hb : assoc ≤ sc.length
  · have hfull : sc.length = assoc := le_antisymm hlen hb
    have hne : sc ≠ [] := by
      intro h
      rw [h] at hfull
      simp at hfull
      omega
    have hlenpos : 0 < sc.length := by
      cases sc with
      | nil => exact absurd rfl hne
      | cons x r => simp
    simp only [hb, decide_True, installSet, not_true_eq_false, if_false]
    cases pol with
    | R =>
      have hidx : rand n % assoc < sc.length := by
        have := Nat.mod_lt (rand n) hpos
        omega
      refine ⟨by simp; omega, by simp, fun _ => by simp, ?_, ?_, ?_, ?_⟩
      · intro e he
        exact List.mem_or_eq_of_mem_set he
      · exact List.mem_set sc _ hidx _
      · intro h; exact h.elim
      · intro hnm hnd
        simp only [tagsOf, List.map_set]
        exact nodup_set_of_not_mem _ _ _ hnd hnm
    | F =>
      refine ⟨by simp; omega, by simp; omega, fun _ => by simp; omega,
        ?_, ?_, ?_, ?_⟩
      · intro e he
        rcases List.mem_append.mp he with h1 | h2
        · exact Or.inl (List.mem_of_mem_tail h1)
        · exact Or.inr (List.mem_singleton.mp h2)
      · exact List.mem_append_right _ (List.mem_cons_self _ _)
      · intro h; exact h.elim
      · intro hnm hnd
        have htl : (tagsOf sc.tail).Nodup := by
          refine List.Nodup.sublist ?_ hnd
          exact List.Sublist.map _ (List.tail_sublist sc)
        have hnm' : tag ∉ tagsOf sc.tail := by
          intro h
          exact hnm (List.Sublist.mem h (List.Sublist.map _ (List.tail_sublist sc)))
        have : tagsOf (sc.tail ++ [⟨tag, true, n⟩]) =
            tagsOf sc.tail ++ [tag] := by simp [tagsOf]
        rw [this]
        rw [List.Perm.nodup_iff (List.perm_append_singleton _ _)]
        exact List.nodup_cons.mpr ⟨hnm', htl⟩
    | L =>
      have hidx : lruVictim sc < sc.length := lruVictim_lt sc hne
      refine ⟨by simp; omega, by simp, fun _ => by simp, ?_, ?_, ?_, ?_⟩
      · intro e he
        exact List.mem_or_eq_of_mem_set he
      · exact List.mem_set sc _ hidx _
      · intro h; exact h.elim
      · intro hnm hnd
        simp only [tagsOf, List.map_set]
        exact nodup_set_of_not_mem _ _ _ hnd hnm
  · have hlt : sc.length < assoc := by omega
    simp only [hb, decide_False, installSet, Bool.false_eq_true,
      not_false_eq_true, if_true]
    refine ⟨by simp; omega, by simp, fun h => h.elim, ?_, ?_, fun _ => trivial, ?_⟩
    · intro e he
      rcases List.mem_append.mp he with h1 | h2
      · exact Or.inl h1
      · exact Or.inr (List.mem_singleton.mp h2)
    · exact List.mem_append_right _ (List.mem_cons_self _ _)
    · intro hnm hnd
      have : tagsOf (sc ++ [⟨tag, true, n⟩]) = tagsOf sc ++ [tag] := by
        simp [tagsOf]
      rw [this, List.Perm.nodup_iff (List.perm_append_singleton _ _)]
      exact List.nodup_cons.mpr ⟨hnm, hnd⟩

/-! ## Preservation of the reachability invariant -/

theorem inv_step (cfg : Cfg) (rand : Nat → Nat) (st st' : CacheState) (a : Nat)
    (hv : cfg.Valid) (hI : Inv cfg st)
    (h : access_cache cfg rand st a = some st') :
    Inv cfg st' ∧
    st'.seen_tags = insert (tagOf cfg a, idxOf cfg a) st.seen_tags := by
  obtain ⟨sc, hsc, hcase⟩ := access_cache_cases cfg rand st a st' h
  have hmem : sc ∈ st.sets := List.getElem?_mem hsc
  have hlt : idxOf cfg a < st.sets.length :=
    (List.getElem?_eq_some_iff.mp hsc).1
  rcases hcase with ⟨p, e, q, hsplit, rfl⟩ | ⟨hnone, rfl⟩
  · -- hit step
    obtain ⟨hsceq, hetag, hevalid, _⟩ :=
      hitSplit_some_spec (tagOf cfg a) sc p e q hsplit
    have hseen_e : (tagOf cfg a, idxOf cfg a) ∈ st.seen_tags := by
      have := hI.tags_seen (idxOf cfg a) sc hsc e (by rw [hsceq]; simp)
      rwa [hetag] at this
    have htlen :
        (touchSet cfg.subst (st.total_accesses + 1) p e q).length = sc.length := by
      rw [length_touchSet, hsceq]
    have htperm :
        List.Perm (tagsOf (touchSet cfg.subst (st.total_accesses + 1) p e q))
          (tagsOf sc) := by
      rw [hsceq]; exact tagsOf_touchSet cfg.subst (st.total_accesses + 1) p e q
    have htmem :
        ∀ t, t ∈ tagsOf (touchSet cfg.subst (st.total_accesses + 1) p e q) ↔
          t ∈ tagsOf sc := fun t => htperm.mem_iff
    constructor
    · constructor
      · simpa [hitState] using hI.sets_len
      · intro sc' hsc'
        simp only [hitState] at hsc'
        rcases List.mem_or_eq_of_mem_set hsc' with h' | rfl
        · exact hI.set_bound sc' h'
        · rw [htlen]; exact hI.set_bound sc hmem
      · intro sc' hsc'
        simp only [hitState] at hsc'
        rcases List.mem_or_eq_of_mem_set hsc' with h' | rfl
        · exact hI.set_valid sc' h'
        · refine valid_touchSet cfg.subst (st.total_accesses + 1) p e q ?_
          rw [← hsceq]; exact hI.set_valid sc hmem
      · intro sc' hsc'
        simp only [hitState] at hsc'
        rcases List.mem_or_eq_of_mem_set hsc' with h' | rfl
        · exact hI.set_nodup sc' h'
        · exact htperm.nodup_iff.mpr (hI.set_nodup sc hmem)
      · intro j sc' hj e' he'
        simp only [hitState] at hj ⊢
        by_cases hji : j = idxOf cfg a
        · subst hji
          rw [List.getElem?_set_self hlt] at hj
          obtain rfl := Option.some.inj hj
          have : e'.tag ∈ tagsOf sc :=
            (htmem e'.tag).mp (List.mem_map_of_mem Line.tag he')
          obtain ⟨f, hf, hft⟩ := List.mem_map.mp this
          rw [← hft]
          exact hI.tags_seen (idxOf cfg a) sc hsc f hf
        · rw [List.getElem?_set_ne (fun h => hji h.symm)] at hj
          exact hI.tags_seen j sc' hj e' he'
      · intro t' j sc' hmem' hj
        simp only [hitState] at hj hmem' ⊢
        by_cases hji : j = idxOf cfg a
        · subst hji
          rw [List.getElem?_set_self hlt] at hj
          obtain rfl := Option.some.inj hj
          rcases hI.seen_resident t' (idxOf cfg a) sc hmem' hsc with h' | h'
          · exact Or.inl ((htmem t').mpr h')
          · exact Or.inr (by rw [htlen]; exact h')
        · rw [List.getElem?_set_ne (fun h => hji h.symm)] at hj
          exact hI.seen_resident t' j sc' hmem' hj
      · simpa [hitState] using hI.comp_card
    · simp only [hitState]
      exact (Finset.insert_eq_self.mpr hseen_e).symm
  · -- miss step
    have hvalid_sc : ∀ e ∈ sc, e.valid = true := hI.set_valid sc hmem
    have hnm : tagOf cfg a ∉ tagsOf sc :=
      miss_not_mem_tags (tagOf cfg a) sc hnone hvalid_sc
    obtain ⟨hns_le, hns_ge, hns_full_eq, hns_mem, hnew_mem, hns_nfull_eq,
        hns_nodup⟩ :=
      installSet_spec cfg.subst rand cfg.assoc (st.total_accesses + 1)
        (tagOf cfg a) sc hv.2.2 (hI.set_bound sc hmem)
    refine ⟨?_, rfl⟩
    constructor
    · simpa [missState] using hI.sets_len
    · intro sc' hsc'
      simp only [missState] at hsc'
      rcases List.mem_or_eq_of_mem_set hsc' with h' | rfl
      · exact hI.set_bound sc' h'
      · exact hns_le
    · intro sc' hsc'
      simp only [missState] at hsc'
      rcases List.mem_or_eq_of_mem_set hsc' with h' | rfl
      · exact hI.set_valid sc' h'
      · intro e' he'
        rcases hns_mem e' he' with h' | rfl
        · exact hvalid_sc e' h'
        · rfl
    · intro sc' hsc'
      simp only [missState] at hsc'
      rcases List.mem_or_eq_of_mem_set hsc' with h' | rfl
      · exact hI.set_nodup sc' h'
      · exact hns_nodup hnm (hI.set_nodup sc hmem)
    · intro j sc' hj e' he'
      simp only [missState] at hj ⊢
      by_cases hji : j = idxOf cfg a
      · subst hji
        rw [List.getElem?_set_self hlt] at hj
        obtain rfl := Option.some.inj hj
        rcases hns_mem e' he' with h' | rfl
        · exact Finset.mem_insert_of_mem
            (hI.tags_seen (idxOf cfg a) sc hsc e' h')
        · exact Finset.mem_insert_self _ _
      · rw [List.getElem?_set_ne (fun h => hji h.symm)] at hj
        exact Finset.mem_insert_of_mem (hI.tags_seen j sc' hj e' he')
    · intro t' j sc' hmem' hj
      simp only [missState] at hj hmem' ⊢
      by_cases hji : j = idxOf cfg a
      · subst hji
        rw [List.getElem?_set_self hlt] at hj
        obtain rfl := Option.some.inj hj
        rcases Finset.mem_insert.mp hmem' with hpair | hold
        · obtain ⟨rfl, -⟩ := Prod.mk.inj hpair
          exact Or.inl (List.mem_map_of_mem Line.tag hnew_mem)
        · rcases hI.seen_resident t' (idxOf cfg a) sc hold hsc with h' | h'
          · by_cases hfull : cfg.assoc ≤ sc.length
            · exact Or.inr (by rw [hns_full_eq hfull]; exact hfull)
            · refine Or.inl ?_
              rw [hns_nfull_eq hfull]
              simp only [tagsOf, List.map_append]
              exact List.mem_append_left _ h'
          · exact Or.inr (by rw [hns_full_eq h']; exact h')
      · rw [List.getElem?_set_ne (fun h => hji h.symm)] at hj
        rcases Finset.mem_insert.mp hmem' with hpair | hold
        · obtain ⟨-, h2⟩ := Prod.mk.inj hpair
          exact absurd h2 hji
        · exact hI.seen_resident t' j sc' hold hj
    · -- compulsory counter equals the number of recorded pairs
      show st.compulsory_misses +
          compInc (decide ((tagOf cfg a, idxOf cfg a) ∉ st.seen_tags))
            (decide (cfg.assoc ≤ sc.length))
            (decide (cfg.nsets * cfg.assoc ≤ (st.sets.map List.length).sum))
        = (insert (tagOf cfg a, idxOf cfg a) st.seen_tags).card
      by_cases hpair : (tagOf cfg a, idxOf cfg a) ∈ st.seen_tags
      · have hfull : cfg.assoc ≤ sc.length := by
          rcases hI.seen_resident (tagOf cfg a) (idxOf cfg a) sc hpair hsc
            with h' | h'
          · exact absurd h' hnm
          · exact h'
        rw [Finset.insert_eq_self.mpr hpair, ← hI.comp_card]
        simp [compInc, hpair, hfull]
      · rw [Finset.card_insert_of_not_mem hpair, ← hI.comp_card]
        simp [compInc, hpair]

/-- The freshly constructed cache satisfies the invariant. -/
theorem inv_init (cfg : Cfg) : Inv cfg (initState cfg) := by
  constructor
  · simp [initState]
  · intro sc hsc
    obtain rfl := List.eq_of_mem_replicate hsc
    simp
  · intro sc hsc
    obtain rfl := List.eq_of_mem_replicate hsc
    simp
  · intro sc hsc
    obtain rfl := List.eq_of_mem_replicate hsc
    simp [tagsOf]
  · intro i sc hsc e he
    obtain rfl := List.eq_of_mem_replicate (List.getElem?_mem hsc)
    cases he
  · intro t i sc hmem hsc
    simp [initState] at hmem
  · simp [initState]

theorem inv_runFrom (cfg : Cfg) (rand : Nat → Nat) (hv : cfg.Valid) :
    ∀ (tr : List Nat) (st st' : CacheState),
      runFrom cfg rand st tr = some st' → Inv cfg st →
      Inv cfg st' ∧ st'.seen_tags = st.seen_tags ∪ decodedPairs cfg tr := by
  intro tr
  induction tr with
  | nil =>
    intro st st' h hI
    obtain rfl := Option.some.inj h
    simp [decodedPairs]
    exact hI
  | cons a rest ih =>
    intro st st' h hI
    simp only [runFrom] at h
    cases hstep : access_cache cfg rand st a with
    | none => rw [hstep] at h; simp at h
    | some st1 =>
      rw [hstep] at h
      obtain ⟨hI1, hseen1⟩ := inv_step cfg rand st st1 a hv hI hstep
      obtain ⟨hI', hseen'⟩ := ih st1 st' h hI1
      refine ⟨hI', ?_⟩
      rw [hseen', hseen1]
      ext x
      simp only [Finset.mem_union, Finset.mem_insert, decodedPairs,
        List.map_cons, List.toFinset_cons, List.mem_toFinset, List.mem_map]
      constructor
      · rintro ((rfl | hx) | hx)
        · exact Or.inr (Or.inl rfl)
        · exact Or.inl hx
        · exact Or.inr (Or.inr hx)
      · rintro (hx | (rfl | hx))
        · exact Or.inl (Or.inr hx)
        · exact Or.inl (Or.inl rfl)
        · exact Or.inr hx

/-- Exactly one of the three 3C sub-counters is incremented on a miss. -/
theorem inc_sum (b1 b2 b3 : Bool) :
    compInc b1 b2 b3 + capInc b1 b2 b3 + confInc b1 b2 b3 = 1 := by
  cases b1 <;> cases b2 <;> cases b3 <;> rfl

/-- Counter bookkeeping of a single access: the access counter advances by
one and the access is counted either as a hit or as a miss with exactly one
3C sub-counter incremented. -/
theorem counters_step (cfg : Cfg) (rand : Nat → Nat) (st st' : CacheState)
    (a : Nat) (h : access_cache cfg rand st a = some st') :
    st'.total_accesses = st.total_accesses + 1 ∧
    ((st'.hits = st.hits + 1 ∧ st'.misses = st.misses ∧
      st'.compulsory_misses = st.compulsory_misses ∧
      st'.capacity_misses = st.capacity_misses ∧
      st'.conflict_misses = st.conflict_misses) ∨
     (st'.hits = st.hits ∧ st'.misses = st.misses + 1 ∧
      st'.compulsory_misses + st'.capacity_misses + st'.conflict_misses =
        st.compulsory_misses + st.capacity_misses + st.conflict_misses + 1 ∧
      st.compulsory_misses ≤ st'.compulsory_misses ∧
      st.capacity_misses ≤ st'.capacity_misses ∧
      st.conflict_misses ≤ st'.conflict_misses)) := by
  obtain ⟨sc, hsc, hcase⟩ := access_cache_cases cfg rand st a st' h
  rcases hcase with ⟨p, e, q, hsplit, rfl⟩ | ⟨hnone, rfl⟩
  · exact ⟨rfl, Or.inl ⟨rfl, rfl, rfl, rfl, rfl⟩⟩
  · refine ⟨rfl, Or.inr ⟨rfl, rfl, ?_, ?_, ?_, ?_⟩⟩ <;>
      simp only [missState] <;>
      have := inc_sum (decide ((tagOf cfg a, idxOf cfg a) ∉ st.seen_tags))
        (decide (cfg.assoc ≤ sc.length))
        (decide (cfg.nsets * cfg.assoc ≤ (st.sets.map List.length).sum)) <;>
      omega

/-- Counter bookkeeping over a whole (partial) run. -/
theorem counters_runFrom (cfg : Cfg) (rand : Nat → Nat) :
    ∀ (tr : List Nat) (st st' : CacheState),
      runFrom cfg rand st tr = some st' →
      ((st.hits + st.misses = st.total_accesses →
          st'.hits + st'.misses = st'.total_accesses) ∧
       (st.compulsory_misses + st.capacity_misses + st.conflict_misses
           = st.misses →
          st'.compulsory_misses + st'.capacity_misses + st'.conflict_misses
           = st'.misses) ∧
       st.total_accesses ≤ st'.total_accesses ∧
       st.hits ≤ st'.hits ∧ st.misses ≤ st'.misses ∧
       st.compulsory_misses ≤ st'.compulsory_misses ∧
       st.capacity_misses ≤ st'.capacity_misses ∧
       st.conflict_misses ≤ st'.conflict_misses) := by
  intro tr
  induction tr with
  | nil =>
    intro st st' h
    obtain rfl := Option.some.inj h
    exact ⟨id, id, le_rfl, le_rfl, le_rfl, le_rfl, le_rfl, le_rfl⟩
  | cons a rest ih =>
    intro st st' h
    simp only [runFrom] at h
    cases hstep : access_cache cfg rand st a with
    | none => rw [hstep] at h; simp at h
    | some st1 =>
      rw [hstep] at h
      obtain ⟨ht, hcase⟩ := counters_step cfg rand st st1 a hstep
      obtain ⟨ih1, ih2, ih3, ih4, ih5, ih6, ih7, ih8⟩ := ih st1 st' h
      rcases hcase with ⟨h1, h2, h3, h4, h5⟩ | ⟨h1, h2, h3, h4, h5, h6⟩ <;>
        refine ⟨fun hh => ih1 (by omega), fun hh => ih2 (by omega),
          by omega, by omega, by omega, by omega, by omega, by omega⟩

/-- Per-set lengths never decrease over one access, and the number of sets
is fixed. -/
theorem sets_mono_step (cfg : Cfg) (rand : Nat → Nat) (st st' : CacheState)
    (a : Nat) (hv : cfg.Valid) (hI : Inv cfg st)
    (h : access_cache cfg rand st a = some st') :
    st'.sets.length = st.sets.length ∧
    ∀ (j : Nat) (sc : List Line), st.sets[j]? = some sc →
      ∃ sc' : List Line, st'.sets[j]? = some sc' ∧ sc.length ≤ sc'.length := by
  obtain ⟨sc0, hsc0, hcase⟩ := access_cache_cases cfg rand st a st' h
  have hlt : idxOf cfg a < st.sets.length :=
    (List.getElem?_eq_some_iff.mp hsc0).1
  have hmem0 : sc0 ∈ st.sets := List.getElem?_mem hsc0
  rcases hcase with ⟨p, e, q, hsplit, rfl⟩ | ⟨hnone, rfl⟩
  · obtain ⟨hsceq, -, -, -⟩ := hitSplit_some_spec (tagOf cfg a) sc0 p e q hsplit
    refine ⟨by simp [hitState], ?_⟩
    intro j sc hj
    by_cases hji : j = idxOf cfg a
    · subst hji
      obtain rfl := Option.some.inj (hsc0 ▸ hj)
      refine ⟨touchSet cfg.subst (st.total_accesses + 1) p e q,
        by simp [hitState, List.getElem?_set_self hlt], ?_⟩
      rw [length_touchSet, ← hsceq]
    · exact ⟨sc, by simp [hitState,
        List.getElem?_set_ne (fun h => hji h.symm), hj], le_rfl⟩
  · obtain ⟨-, hns_ge, -, -, -, -, -⟩ :=
      installSet_spec cfg.subst rand cfg.assoc (st.total_accesses + 1)
        (tagOf cfg a) sc0 hv.2.2 (hI.set_bound sc0 hmem0)
    refine ⟨by simp [missState], ?_⟩
    intro j sc hj
    by_cases hji : j = idxOf cfg a
    · subst hji
      obtain rfl := Option.some.inj (hsc0 ▸ hj)
      exact ⟨_, by simp [missState, List.getElem?_set_self hlt], hns_ge⟩
    · exact ⟨sc, by simp [missState,
        List.getElem?_set_ne (fun h => hji h.symm), hj], le_rfl⟩

/-- `sets_mono_step` over a whole (partial) run. -/
theorem sets_mono_runFrom (cfg : Cfg) (rand : Nat → Nat) (hv : cfg.Valid) :
    ∀ (tr : List Nat) (st st' : CacheState),
      runFrom cfg rand st tr = some st' → Inv cfg st →
      st'.sets.length = st.sets.length ∧
      ∀ (j : Nat) (sc : List Line), st.sets[j]? = some sc →
        ∃ sc' : List Line, st'.sets[j]? = some sc' ∧ sc.length ≤ sc'.length := by
  intro tr
  induction tr with
  | nil =>
    intro st st' h hI
    obtain rfl := Option.some.inj h
    exact ⟨rfl, fun j sc hj => ⟨sc, hj, le_rfl⟩⟩
  | cons a rest ih =>
    intro st st' h hI
    simp only [runFrom] at h
    cases hstep : access_cache cfg rand st a with
    | none => rw [hstep] at h; simp at h
    | some st1 =>
      rw [hstep] at h
      obtain ⟨hI1, -⟩ := inv_step cfg rand st st1 a hv hI hstep
      obtain ⟨hlen1, hmono1⟩ := sets_mono_step cfg rand st st1 a hv hI hstep
      obtain ⟨hlen2, hmono2⟩ := ih st1 st' h hI1
      refine ⟨hlen2.trans hlen1, ?_⟩
      intro j sc hj
      obtain ⟨sc1, hj1, hle1⟩ := hmono1 j sc hj
      obtain ⟨sc2, hj2, hle2⟩ := hmono2 j sc1 hj1
      exact ⟨sc2, hj2, hle1.trans hle2⟩


/-! ## C2, C9: run-level invariants -/

/-- **C2**: for every configuration and trace, after every access
`hits + misses = total_accesses` and
`compulsory + capacity + conflict = misses` hold, and all six counters
(which are natural numbers, hence non-negative) are monotonically
non-decreasing over the run: `st1` is the state after any prefix and `st2`
the state after any further accesses. -/
theorem C2_counter_invariants (cfg : Cfg) (rand : Nat → Nat)
    (pre suf : List Nat) (st1 st2 : CacheState)
    (h1 : run cfg rand pre = some st1)
    (h2 : runFrom cfg rand st1 suf = some st2) :
    (st1.hits + st1.misses = st1.total_accesses ∧
     st1.compulsory_misses + st1.capacity_misses + st1.conflict_misses
       = st1.misses) ∧
    (st2.hits + st2.misses = st2.total_accesses ∧
     st2.compulsory_misses + st2.capacity_misses + st2.conflict_misses
       = st2.misses) ∧
    (st1.total_accesses ≤ st2.total_accesses ∧ st1.hits ≤ st2.hits ∧
     st1.misses ≤ st2.misses ∧
     st1.compulsory_misses ≤ st2.compulsory_misses ∧
     st1.capacity_misses ≤ st2.capacity_misses ∧
     st1.conflict_misses ≤ st2.conflict_misses) := by
  obtain ⟨e1, e2, -, -, -, -, -, -⟩ :=
    counters_runFrom cfg rand pre (initState cfg) st1 h1
  have hinv1 : st1.hits + st1.misses = st1.total_accesses :=
    e1 (by simp [initState])
  have hinv1' : st1.compulsory_misses + st1.capacity_misses +
      st1.conflict_misses = st1.misses := e2 (by simp [initState])
  obtain ⟨f1, f2, m1, m2, m3, m4, m5, m6⟩ :=
    counters_runFrom cfg rand suf st1 st2 h2
  exact ⟨⟨hinv1, hinv1'⟩, ⟨f1 hinv1, f2 hinv1'⟩, m1, m2, m3, m4, m5, m6⟩

/-- Witness for C2 on the one-line cache with trace prefix `[0]` and one
further access `[1]`. -/
theorem C2_counter_invariants_witness :
    (run ⟨1, 1, 1, .L⟩ (fun _ => 0) [0]
      = some ⟨[[⟨0, true, 1⟩]], 1, 0, 1, 1, 0, 0, {(0, 0)}⟩) ∧
    (runFrom ⟨1, 1, 1, .L⟩ (fun _ => 0)
        ⟨[[⟨0, true, 1⟩]], 1, 0, 1, 1, 0, 0, {(0, 0)}⟩ [1]
      = some ⟨[[⟨1, true, 2⟩]], 2, 0, 2, 2, 0, 0, {(1, 0), (0, 0)}⟩) ∧
    (((⟨[[⟨0, true, 1⟩]], 1, 0, 1, 1, 0, 0, {(0, 0)}⟩ : CacheState).hits +
        (⟨[[⟨0, true, 1⟩]], 1, 0, 1, 1, 0, 0, {(0, 0)}⟩ : CacheState).misses =
        (⟨[[⟨0, true, 1⟩]], 1, 0, 1, 1, 0, 0, {(0, 0)}⟩ : CacheState).total_accesses ∧
      (⟨[[⟨0, true, 1⟩]], 1, 0, 1, 1, 0, 0, {(0, 0)}⟩ : CacheState).compulsory_misses +
        (⟨[[⟨0, true, 1⟩]], 1, 0, 1, 1, 0, 0, {(0, 0)}⟩ : CacheState).capacity_misses +
        (⟨[[⟨0, true, 1⟩]], 1, 0, 1, 1, 0, 0, {(0, 0)}⟩ : CacheState).conflict_misses =
        (⟨[[⟨0, true, 1⟩]], 1, 0, 1, 1, 0, 0, {(0, 0)}⟩ : CacheState).misses) ∧
     ((⟨[[⟨1, true, 2⟩]], 2, 0, 2, 2, 0, 0, {(1, 0), (0, 0)}⟩ : CacheState).hits +
        (⟨[[⟨1, true, 2⟩]], 2, 0, 2, 2, 0, 0, {(1, 0), (0, 0)}⟩ : CacheState).misses =
        (⟨[[⟨1, true, 2⟩]], 2, 0, 2, 2, 0, 0, {(1, 0), (0, 0)}⟩ : CacheState).total_accesses ∧
      (⟨[[⟨1, true, 2⟩]], 2, 0, 2, 2, 0, 0, {(1, 0), (0, 0)}⟩ : CacheState).compulsory_misses +
        (⟨[[⟨1, true, 2⟩]], 2, 0, 2, 2, 0, 0, {(1, 0), (0, 0)}⟩ : CacheState).capacity_misses +
        (⟨[[⟨1, true, 2⟩]], 2, 0, 2, 2, 0, 0, {(1, 0), (0, 0)}⟩ : CacheState).conflict_misses =
        (⟨[[⟨1, true, 2⟩]], 2, 0, 2, 2, 0, 0, {(1, 0), (0, 0)}⟩ : CacheState).misses) ∧
     ((⟨[[⟨0, true, 1⟩]], 1, 0, 1, 1, 0, 0, {(0, 0)}⟩ : CacheState).total_accesses ≤
        (⟨[[⟨1, true, 2⟩]], 2, 0, 2, 2, 0, 0, {(1, 0), (0, 0)}⟩ : CacheState).total_accesses ∧
      (⟨[[⟨0, true, 1⟩]], 1, 0, 1, 1, 0, 0, {(0, 0)}⟩ : CacheState).hits ≤
        (⟨[[⟨1, true, 2⟩]], 2, 0, 2, 2, 0, 0, {(1, 0), (0, 0)}⟩ : CacheState).hits ∧
      (⟨[[⟨0, true, 1⟩]], 1, 0, 1, 1, 0, 0, {(0, 0)}⟩ : CacheState).misses ≤
        (⟨[[⟨1, true, 2⟩]], 2, 0, 2, 2, 0, 0, {(1, 0), (0, 0)}⟩ : CacheState).misses ∧
      (⟨[[⟨0, true, 1⟩]], 1, 0, 1, 1, 0, 0, {(0, 0)}⟩ : CacheState).compulsory_misses ≤
        (⟨[[⟨1, true, 2⟩]], 2, 0, 2, 2, 0, 0, {(1, 0), (0, 0)}⟩ : CacheState).compulsory_misses ∧
      (⟨[[⟨0, true, 1⟩]], 1, 0, 1, 1, 0, 0, {(0, 0)}⟩ : CacheState).capacity_misses ≤
        (⟨[[⟨1, true, 2⟩]], 2, 0, 2, 2, 0, 0, {(1, 0), (0, 0)}⟩ : CacheState).capacity_misses ∧
      (⟨[[⟨0, true, 1⟩]], 1, 0, 1, 1, 0, 0, {(0, 0)}⟩ : CacheState).conflict_misses ≤
        (⟨[[⟨1, true, 2⟩]], 2, 0, 2, 2, 0, 0, {(1, 0), (0, 0)}⟩ : CacheState).conflict_misses)) :=
  ⟨by decide, by decide,
   C2_counter_invariants ⟨1, 1, 1, .L⟩ (fun _ => 0) [0] [1]
     ⟨[[⟨0, true, 1⟩]], 1, 0, 1, 1, 0, 0, {(0, 0)}⟩
     ⟨[[⟨1, true, 2⟩]], 2, 0, 2, 2, 0, 0, {(1, 0), (0, 0)}⟩
     (by decide) (by decide)⟩

/-- **C9**: in every reachable state, every set's length is at most the
associativity, every stored entry is valid, tags within one set are
pairwise distinct, and per-set lengths never decrease across accesses. -/
theorem C9_set_invariants (cfg : Cfg) (rand : Nat → Nat) (hv : cfg.Valid)
    (pre suf : List Nat) (st1 st2 : CacheState)
    (h1 : run cfg rand pre = some st1)
    (h2 : runFrom cfg rand st1 suf = some st2) :
    (∀ sc ∈ st1.sets, sc.length ≤ cfg.assoc ∧ (∀ e ∈ sc, e.valid = true) ∧
      (tagsOf sc).Nodup) ∧
    (∀ sc ∈ st2.sets, sc.length ≤ cfg.assoc ∧ (∀ e ∈ sc, e.valid = true) ∧
      (tagsOf sc).Nodup) ∧
    st2.sets.length = st1.sets.length ∧
    (∀ (j : Nat) (sc : List Line), st1.sets[j]? = some sc →
      ∃ sc' : List Line, st2.sets[j]? = some sc' ∧ sc.length ≤ sc'.length) := by
  obtain ⟨hI1, -⟩ := inv_runFrom cfg rand hv pre (initState cfg) st1 h1
    (inv_init cfg)
  obtain ⟨hI2, -⟩ := inv_runFrom cfg rand hv suf st1 st2 h2 hI1
  obtain ⟨hlen, hmono⟩ := sets_mono_runFrom cfg rand hv suf st1 st2 h2 hI1
  exact ⟨fun sc h => ⟨hI1.set_bound sc h, hI1.set_valid sc h,
      hI1.set_nodup sc h⟩,
    fun sc h => ⟨hI2.set_bound sc h, hI2.set_valid sc h, hI2.set_nodup sc h⟩,
    hlen, hmono⟩

/-- Witness for C9 after the trace `[0]` (empty continuation). -/
theorem C9_set_invariants_witness :
    (Cfg.Valid ⟨1, 1, 1, .L⟩) ∧
    (run ⟨1, 1, 1, .L⟩ (fun _ => 0) [0]
      = some ⟨[[⟨0, true, 1⟩]], 1, 0, 1, 1, 0, 0, {(0, 0)}⟩) ∧
    (runFrom ⟨1, 1, 1, .L⟩ (fun _ => 0)
        ⟨[[⟨0, true, 1⟩]], 1, 0, 1, 1, 0, 0, {(0, 0)}⟩ []
      = some ⟨[[⟨0, true, 1⟩]], 1, 0, 1, 1, 0, 0, {(0, 0)}⟩) ∧
    ((∀ sc ∈ (⟨[[⟨0, true, 1⟩]], 1, 0, 1, 1, 0, 0, {(0, 0)}⟩ : CacheState).sets,
        sc.length ≤ (⟨1, 1, 1, .L⟩ : Cfg).assoc ∧
        (∀ e ∈ sc, e.valid = true) ∧ (tagsOf sc).Nodup) ∧
     (∀ sc ∈ (⟨[[⟨0, true, 1⟩]], 1, 0, 1, 1, 0, 0, {(0, 0)}⟩ : CacheState).sets,
        sc.length ≤ (⟨1, 1, 1, .L⟩ : Cfg).assoc ∧
        (∀ e ∈ sc, e.valid = true) ∧ (tagsOf sc).Nodup) ∧
     (⟨[[⟨0, true, 1⟩]], 1, 0, 1, 1, 0, 0, {(0, 0)}⟩ : CacheState).sets.length =
       (⟨[[⟨0, true, 1⟩]], 1, 0, 1, 1, 0, 0, {(0, 0)}⟩ : CacheState).sets.length ∧
     (∀ (j : Nat) (sc : List Line),
        (⟨[[⟨0, true, 1⟩]], 1, 0, 1, 1, 0, 0, {(0, 0)}⟩ : CacheState).sets[j]?
          = some sc →
        ∃ sc' : List Line,
          (⟨[[⟨0, true, 1⟩]], 1, 0, 1, 1, 0, 0, {(0, 0)}⟩ : CacheState).sets[j]?
            = some sc' ∧ sc.length ≤ sc'.length)) :=
  ⟨by decide, by decide, by decide,
   C9_set_invariants ⟨1, 1, 1, .L⟩ (fun _ => 0) (by decide) [0] []
     ⟨[[⟨0, true, 1⟩]], 1, 0, 1, 1, 0, 0, {(0, 0)}⟩
     ⟨[[⟨0, true, 1⟩]], 1, 0, 1, 1, 0, 0, {(0, 0)}⟩
     (by decide) (by decide)⟩

/-! ## C5: compulsory misses count the distinct decoded pairs -/

/-- **C5**: over a completed run the recorded pairs are exactly the decoded
(tag, index) pairs of the trace and `compulsory_misses` equals their
number — each distinct pair causes exactly one compulsory miss; moreover the
defensive branch (a repeat miss into a non-full set) can never execute: in
any reachable state, a miss whose pair was already recorded finds its
target set full. -/
theorem C5_compulsory_uniqueness (cfg : Cfg) (rand : Nat → Nat)
    (hv : cfg.Valid) :
    (∀ (tr : List Nat) (st : CacheState), run cfg rand tr = some st →
      st.seen_tags = decodedPairs cfg tr ∧
      st.compulsory_misses = (decodedPairs cfg tr).card) ∧
    (∀ (pre : List Nat) (st1 : CacheState) (a : Nat) (sc : List Line),
      run cfg rand pre = some st1 →
      st1.sets[idxOf cfg a]? = some sc →
      hitSplit (tagOf cfg a) sc = none →
      (tagOf cfg a, idxOf cfg a) ∈ st1.seen_tags →
      cfg.assoc ≤ sc.length) := by
  constructor
  · intro tr st h
    obtain ⟨hI, hseen⟩ := inv_runFrom cfg rand hv tr (initState cfg) st h
      (inv_init cfg)
    have hseen' : st.seen_tags = decodedPairs cfg tr := by
      rw [hseen]
      simp [initState]
    exact ⟨hseen', by rw [hI.comp_card, hseen']⟩
  · intro pre st1 a sc h1 hsc hnone hmem
    obtain ⟨hI, -⟩ := inv_runFrom cfg rand hv pre (initState cfg) st1 h1
      (inv_init cfg)
    rcases hI.seen_resident (tagOf cfg a) (idxOf cfg a) sc hmem hsc
      with h' | h'
    · exact absurd h' (miss_not_mem_tags _ sc hnone
        (hI.set_valid sc (List.getElem?_mem hsc)))
    · exact h'

/-- Witness for C5 on the trace `[0, 0]` (pair (0,0) recurs, one
compulsory miss). -/
theorem C5_compulsory_uniqueness_witness :
    (Cfg.Valid ⟨1, 1, 1, .L⟩) ∧
    (run ⟨1, 1, 1, .L⟩ (fun _ => 0) [0, 0]
      = some ⟨[[⟨0, true, 2⟩]], 2, 1, 1, 1, 0, 0, {(0, 0)}⟩) ∧
    ((⟨[[⟨0, true, 2⟩]], 2, 1, 1, 1, 0, 0, {(0, 0)}⟩ : CacheState).seen_tags
       = decodedPairs ⟨1, 1, 1, .L⟩ [0, 0] ∧
     (⟨[[⟨0, true, 2⟩]], 2, 1, 1, 1, 0, 0, {(0, 0)}⟩ : CacheState).compulsory_misses
       = (decodedPairs ⟨1, 1, 1, .L⟩ [0, 0]).card) :=
  ⟨by decide, by decide,
   (C5_compulsory_uniqueness ⟨1, 1, 1, .L⟩ (fun _ => 0) (by decide)).1
     [0, 0] ⟨[[⟨0, true, 2⟩]], 2, 1, 1, 1, 0, 0, {(0, 0)}⟩ (by decide)⟩

/-! ## C8: a fitting working set produces only compulsory misses -/

/-- Capacity and conflict counters are unchanged along any run in which
every accessed pair lies in a pair set `P` whose per-index tag counts fit
within the associativity. -/
theorem no_full_miss_aux (cfg : Cfg) (rand : Nat → Nat) (hv : cfg.Valid)
    (P : Finset (Nat × Nat))
    (hb : ∀ i ∈ P.image Prod.snd,
      (P.filter (fun pr => pr.2 = i)).card ≤ cfg.assoc) :
    ∀ (tr : List Nat) (st st' : CacheState),
      runFrom cfg rand st tr = some st' → Inv cfg st →
      st.seen_tags ⊆ P →
      (∀ a ∈ tr, (tagOf cfg a, idxOf cfg a) ∈ P) →
      st'.capacity_misses = st.capacity_misses ∧
      st'.conflict_misses = st.conflict_misses := by
  intro tr
  induction tr with
  | nil =>
    intro st st' h hI hsub htr
    obtain rfl := Option.some.inj h
    exact ⟨rfl, rfl⟩
  | cons a rest ih =>
    intro st st' h hI hsub htr
    simp only [runFrom] at h
    cases hstep : access_cache cfg rand st a with
    | none => rw [hstep] at h; simp at h
    | some st1 =>
      rw [hstep] at h
      obtain ⟨hI1, hseen1⟩ := inv_step cfg rand st st1 a hv hI hstep
      have hpa : (tagOf cfg a, idxOf cfg a) ∈ P :=
        htr a (List.mem_cons_self _ _)
      have hsub1 : st1.seen_tags ⊆ P := by
        rw [hseen1]
        exact Finset.insert_subset hpa hsub
      have hstep_eq : st1.capacity_misses = st.capacity_misses ∧
          st1.conflict_misses = st.conflict_misses := by
        obtain ⟨sc, hsc, hcase⟩ := access_cache_cases cfg rand st a st1 hstep
        rcases hcase with ⟨p, e, q, hsplit, rfl⟩ | ⟨hnone, rfl⟩
        · exact ⟨rfl, rfl⟩
        · have hnfull : ¬ cfg.assoc ≤ sc.length := by
            intro hfull
            have hmem : sc ∈ st.sets := List.getElem?_mem hsc
            have hnd : (tagsOf sc).Nodup := hI.set_nodup sc hmem
            have hnm : tagOf cfg a ∉ tagsOf sc :=
              miss_not_mem_tags _ sc hnone (hI.set_valid sc hmem)
            have hTcard :
                ((tagsOf sc).toFinset.image
                  (fun x => (x, idxOf cfg a))).card = sc.length := by
              rw [Finset.card_image_of_injective _
                  (fun x y hxy => (Prod.mk.inj hxy).1),
                List.toFinset_card_of_nodup hnd]
              simp [tagsOf]
            have hTsub : insert (tagOf cfg a, idxOf cfg a)
                ((tagsOf sc).toFinset.image (fun x => (x, idxOf cfg a))) ⊆
                P.filter (fun pr => pr.2 = idxOf cfg a) := by
              intro x hx
              rcases Finset.mem_insert.mp hx with rfl | hxT
              · exact Finset.mem_filter.mpr ⟨hpa, rfl⟩
              · obtain ⟨t', ht', rfl⟩ := Finset.mem_image.mp hxT
                refine Finset.mem_filter.mpr ⟨?_, rfl⟩
                obtain ⟨f, hf, hft⟩ :=
                  List.mem_map.mp (List.mem_toFinset.mp ht')
                exact hsub (hft ▸ hI.tags_seen (idxOf cfg a) sc hsc f hf)
            have hnotT : (tagOf cfg a, idxOf cfg a) ∉
                (tagsOf sc).toFinset.image (fun x => (x, idxOf cfg a)) := by
              intro hx
              obtain ⟨t', ht', hx'⟩ := Finset.mem_image.mp hx
              obtain ⟨h1, -⟩ := Prod.mk.inj hx'
              exact hnm (h1 ▸ List.mem_toFinset.mp ht')
            have hiP : idxOf cfg a ∈ P.image Prod.snd :=
              Finset.mem_image.mpr ⟨_, hpa, rfl⟩
            have hcontra : sc.length + 1 ≤ cfg.assoc := by
              calc sc.length + 1
                  = (insert (tagOf cfg a, idxOf cfg a)
                      ((tagsOf sc).toFinset.image
                        (fun x => (x, idxOf cfg a)))).card := by
                    rw [Finset.card_insert_of_not_mem hnotT, hTcard]
                _ ≤ (P.filter (fun pr => pr.2 = idxOf cfg a)).card :=
                    Finset.card_le_card hTsub
                _ ≤ cfg.assoc := hb (idxOf cfg a) hiP
            omega
          constructor <;>
            simp [missState, capInc, confInc, hnfull]
      obtain ⟨hc1, hc2⟩ := ih st1 st' h hI1 hsub1
        (fun b hb' => htr b (List.mem_cons_of_mem _ hb'))
      exact ⟨hc1.trans hstep_eq.1, hc2.trans hstep_eq.2⟩

/-- **C8**: whenever, for each index, the number of distinct decoded tags
mapping to that index does not exceed the associativity, the run ends with
`capacity_misses = 0` and `conflict_misses = 0` (with C2 and C5, every
miss is classified compulsory). -/
theorem C8_only_compulsory (cfg : Cfg) (rand : Nat → Nat) (hv : cfg.Valid)
    (tr : List Nat) (st : CacheState)
    (hb : ∀ i ∈ (decodedPairs cfg tr).image Prod.snd,
      ((decodedPairs cfg tr).filter (fun pr => pr.2 = i)).card ≤ cfg.assoc)
    (hrun : run cfg rand tr = some st) :
    st.capacity_misses = 0 ∧ st.conflict_misses = 0 := by
  have hres := no_full_miss_aux cfg rand hv (decodedPairs cfg tr) hb tr
    (initState cfg) st hrun (inv_init cfg) (by simp [initState])
    (fun a ha => by
      simp only [decodedPairs, List.mem_toFinset, List.mem_map]
      exact ⟨a, ha, rfl⟩)
  simpa [initState] using hres

/-- Witness for C8 on a 2-way set with working set {0, 1} at index 0. -/
theorem C8_only_compulsory_witness :
    (Cfg.Valid ⟨1, 1, 2, .L⟩) ∧
    (∀ i ∈ (decodedPairs ⟨1, 1, 2, .L⟩ [0, 1, 0, 1]).image Prod.snd,
      ((decodedPairs ⟨1, 1, 2, .L⟩ [0, 1, 0, 1]).filter
        (fun pr => pr.2 = i)).card ≤ (⟨1, 1, 2, .L⟩ : Cfg).assoc) ∧
    (run ⟨1, 1, 2, .L⟩ (fun _ => 0) [0, 1, 0, 1]
      = some ⟨[[⟨0, true, 3⟩, ⟨1, true, 4⟩]], 4, 2, 2, 2, 0, 0,
          {(1, 0), (0, 0)}⟩) ∧
    ((⟨[[⟨0, true, 3⟩, ⟨1, true, 4⟩]], 4, 2, 2, 2, 0, 0,
        {(1, 0), (0, 0)}⟩ : CacheState).capacity_misses = 0 ∧
     (⟨[[⟨0, true, 3⟩, ⟨1, true, 4⟩]], 4, 2, 2, 2, 0, 0,
        {(1, 0), (0, 0)}⟩ : CacheState).conflict_misses = 0) :=
  ⟨by decide, by decide, by decide,
   C8_only_compulsory ⟨1, 1, 2, .L⟩ (fun _ => 0) (by decide) [0, 1, 0, 1]
     ⟨[[⟨0, true, 3⟩, ⟨1, true, 4⟩]], 4, 2, 2, 2, 0, 0, {(1, 0), (0, 0)}⟩
     (by decide) (by decide)⟩


/-! ## C6: the LRU policy -/

theorem keyAt_append_left (l1 l2 : List Line) (j : Nat) (h : j < l1.length) :
    keyAt (l1 ++ l2) j = keyAt l1 j := by
  simp [keyAt, List.getElem?_append_left h]

theorem keyAt_append_at_length (l1 : List Line) (e : Line) (l2 : List Line) :
    keyAt (l1 ++ e :: l2) l1.length = e.order_key := by
  simp [keyAt, List.getElem?_append_right (le_refl l1.length)]

/-- Invariant-carrying form of the LRU victim scan: starting from a best
position `b` inside the processed part `pre`, the scan returns the first
position of minimal `order_key` in `pre ++ rest`. -/
theorem lruScan_go (rest : List Line) :
    ∀ (pre : List Line) (b : Nat), b < pre.length →
      (∀ j, j < pre.length → keyAt pre b ≤ keyAt pre j) →
      (∀ j, j < b → keyAt pre b < keyAt pre j) →
      lruScan rest pre.length b (keyAt pre b) < (pre ++ rest).length ∧
      (∀ j, j < (pre ++ rest).length →
        keyAt (pre ++ rest) (lruScan rest pre.length b (keyAt pre b)) ≤
          keyAt (pre ++ rest) j) ∧
      (∀ j, j < lruScan rest pre.length b (keyAt pre b) →
        keyAt (pre ++ rest) (lruScan rest pre.length b (keyAt pre b)) <
          keyAt (pre ++ rest) j) := by
  induction rest with
  | nil =>
    intro pre b hb hmin hfirst
    simp only [lruScan, List.append_nil]
    refine ⟨hb, hmin, ?_⟩
    intro j hj
    exact hfirst j hj
  | cons e rest ih =>
    intro pre b hb hmin hfirst
    have hkb : keyAt (pre ++ [e]) b = keyAt pre b :=
      keyAt_append_left pre [e] b hb
    have hke : keyAt (pre ++ [e]) pre.length = e.order_key := by
      simpa using keyAt_append_at_length pre e []
    have hlen' : (pre ++ [e]).length = pre.length + 1 := by simp
    have hassoc : (pre ++ [e]) ++ rest = pre ++ e :: rest := by simp
    simp only [lruScan]
    split
    · rename_i hlt
      -- new best: position pre.length with key e.order_key
      have h1 : pre.length < (pre ++ [e]).length := by simp
      have h2 : ∀ j, j < (pre ++ [e]).length →
          keyAt (pre ++ [e]) pre.length ≤ keyAt (pre ++ [e]) j := by
        intro j hj
        rw [hke]
        rcases Nat.lt_or_ge j pre.length with hj' | hj'
        · rw [keyAt_append_left pre [e] j hj']
          exact le_of_lt (lt_of_lt_of_le hlt (hmin j hj'))
        · have : j = pre.length := by
            rw [hlen'] at hj
            omega
          subst this
          rw [hke]
      have h3 : ∀ j, j < pre.length →
          keyAt (pre ++ [e]) pre.length < keyAt (pre ++ [e]) j := by
        intro j hj
        rw [hke, keyAt_append_left pre [e] j hj]
        exact lt_of_lt_of_le hlt (hmin j hj)
      have := ih (pre ++ [e]) pre.length h1
        (by intro j hj; exact h2 j hj)
        (by intro j hj; exact h3 j hj)
      rw [hlen', hke, hassoc] at this
      exact this
    · rename_i hnlt
      -- keep the old best `b`
      have h1 : b < (pre ++ [e]).length := by simp; omega
      have h2 : ∀ j, j < (pre ++ [e]).length →
          keyAt (pre ++ [e]) b ≤ keyAt (pre ++ [e]) j := by
        intro j hj
        rw [hkb]
        rcases Nat.lt_or_ge j pre.length with hj' | hj'
        · rw [keyAt_append_left pre [e] j hj']
          exact hmin j hj'
        · have : j = pre.length := by
            rw [hlen'] at hj
            omega
          subst this
          rw [hke]
          omega
      have h3 : ∀ j, j < b →
          keyAt (pre ++ [e]) b < keyAt (pre ++ [e]) j := by
        intro j hj
        rw [hkb, keyAt_append_left pre [e] j (lt_trans hj hb)]
        exact hfirst j hj
      have := ih (pre ++ [e]) b h1
        (by intro j hj; exact h2 j hj)
        (by intro j hj; exact h3 j hj)
      rw [hlen', hkb, hassoc] at this
      exact this

/-- The LRU victim of a non-empty set is the first position attaining the
minimal `order_key`. -/
theorem lruVictim_is_first_min (sc : List Line) (h : sc ≠ []) :
    lruVictimSpec sc := by
  cases sc with
  | nil => exact absurd rfl h
  | cons e rest =>
    have h0 : (0 : Nat) < ([e] : List Line).length := by simp
    have := lruScan_go rest [e] 0 h0
      (by
        intro j hj
        simp only [List.length_singleton] at hj
        interval_cases j
        exact le_rfl)
      (by intro j hj; omega)
    simp only [List.length_singleton, List.singleton_append] at this
    have hkey : keyAt [e] 0 = e.order_key := by simp [keyAt]
    rw [hkey] at this
    exact this

/-- **C6**: under policy 'L', a hit rewrites the touched entry's
`order_key` to the current global access counter in place; a fresh install
stamps the new entry with the current counter (appended when the set has a
free line, or written over the LRU victim when it is full); the victim of a
full set is the entry with the smallest `order_key`, ties resolving to the
lowest set position encountered first during the scan; and on one 2-way set
the tag sequence 5, 6, 5, 7 (A, B, A, C) evicts 6 (B), not 5 (A). -/
theorem C6_lru_policy (cfg : Cfg) (rand : Nat → Nat) (st : CacheState)
    (a : Nat) (sc : List Line) (hL : cfg.subst = .L)
    (hsc : st.sets[idxOf cfg a]? = some sc) :
    (∀ p e q, hitSplit (tagOf cfg a) sc = some (p, e, q) →
      access_cache cfg rand st a = some { st with
        sets := st.sets.set (idxOf cfg a)
          (p ++ ({ e with order_key := st.total_accesses + 1 } :: q))
        total_accesses := st.total_accesses + 1
        hits := st.hits + 1 }) ∧
    (hitSplit (tagOf cfg a) sc = none → ¬ cfg.assoc ≤ sc.length →
      ∃ st', access_cache cfg rand st a = some st' ∧
        st'.sets = st.sets.set (idxOf cfg a)
          (sc ++ [⟨tagOf cfg a, true, st.total_accesses + 1⟩])) ∧
    (hitSplit (tagOf cfg a) sc = none → cfg.assoc ≤ sc.length →
      ∃ st', access_cache cfg rand st a = some st' ∧
        st'.sets = st.sets.set (idxOf cfg a)
          (sc.set (lruVictim sc)
            ⟨tagOf cfg a, true, st.total_accesses + 1⟩)) ∧
    (sc ≠ [] → lruVictimSpec sc) ∧
    ((run ⟨1, 1, 2, .L⟩ (fun _ => 0) [5, 6, 5, 7]).map
      (fun s => s.sets.map tagsOf) = some [[5, 7]]) := by
  refine ⟨?_, ?_, ?_, fun h => lruVictim_is_first_min sc h, by decide⟩
  · intro p e q hsplit
    rw [access_cache_hit cfg rand st a sc p e q hsc hsplit]
    simp [hitState, touchSet, hL]
  · intro hm hnf
    refine ⟨_, access_cache_miss cfg rand st a sc hsc hm, ?_⟩
    simp [missState, installSet, hnf]
  · intro hm hf
    refine ⟨_, access_cache_miss cfg rand st a sc hsc hm, ?_⟩
    simp [missState, installSet, hL, hf]

/-- Witness for C6 at a full 2-way set under policy 'L'. -/
theorem C6_lru_policy_witness :
    ((⟨1, 1, 2, .L⟩ : Cfg).subst = .L) ∧
    ((⟨[[⟨5, true, 1⟩, ⟨6, true, 2⟩]], 2, 0, 2, 2, 0, 0,
        {(6, 0), (5, 0)}⟩ : CacheState).sets[idxOf ⟨1, 1, 2, .L⟩ 7]?
      = some [⟨5, true, 1⟩, ⟨6, true, 2⟩]) ∧
    ((hitSplit (tagOf ⟨1, 1, 2, .L⟩ 7) [⟨5, true, 1⟩, ⟨6, true, 2⟩] = none) ∧
     ((⟨1, 1, 2, .L⟩ : Cfg).assoc ≤
        ([⟨5, true, 1⟩, ⟨6, true, 2⟩] : List Line).length) ∧
     (∃ st', access_cache ⟨1, 1, 2, .L⟩ (fun _ => 0)
          ⟨[[⟨5, true, 1⟩, ⟨6, true, 2⟩]], 2, 0, 2, 2, 0, 0,
            {(6, 0), (5, 0)}⟩ 7 = some st' ∧
        st'.sets = (⟨[[⟨5, true, 1⟩, ⟨6, true, 2⟩]], 2, 0, 2, 2, 0, 0,
            {(6, 0), (5, 0)}⟩ : CacheState).sets.set (idxOf ⟨1, 1, 2, .L⟩ 7)
          (([⟨5, true, 1⟩, ⟨6, true, 2⟩] : List Line).set
            (lruVictim [⟨5, true, 1⟩, ⟨6, true, 2⟩])
            ⟨tagOf ⟨1, 1, 2, .L⟩ 7, true, 2 + 1⟩)) ∧
     (lruVictimSpec [⟨5, true, 1⟩, ⟨6, true, 2⟩])) :=
  ⟨rfl, by decide,
   by decide,
   by decide,
   (C6_lru_policy ⟨1, 1, 2, .L⟩ (fun _ => 0)
      ⟨[[⟨5, true, 1⟩, ⟨6, true, 2⟩]], 2, 0, 2, 2, 0, 0, {(6, 0), (5, 0)}⟩ 7
      [⟨5, true, 1⟩, ⟨6, true, 2⟩] rfl (by decide)).2.2.1 (by decide)
      (by decide),
   (C6_lru_policy ⟨1, 1, 2, .L⟩ (fun _ => 0)
      ⟨[[⟨5, true, 1⟩, ⟨6, true, 2⟩]], 2, 0, 2, 2, 0, 0, {(6, 0), (5, 0)}⟩ 7
      [⟨5, true, 1⟩, ⟨6, true, 2⟩] rfl (by decide)).2.2.2.1
      (fun h => List.noConfusion h)⟩


/-! ## C10: lemmas relating the 'F' and 'L' replacement policies -/

theorem setRel_length (n : Nat) (f l : List Line) (h : SetRel n f l) :
    f.length = l.length := by
  obtain ⟨s, hperm, htags, -, -, -, -, -⟩ := h
  have h1 : s.length = l.length := hperm.length_eq
  have h2 : (tagsOf s).length = (tagsOf f).length := congrArg List.length htags
  simp only [tagsOf, List.length_map] at h2
  omega

theorem setRel_mono (n m : Nat) (f l : List Line) (hnm : n ≤ m)
    (h : SetRel n f l) : SetRel m f l := by
  obtain ⟨s, hperm, htags, hsort, hbound, hvf, hvl, hnd⟩ := h
  exact ⟨s, hperm, htags, hsort, fun e he => le_trans (hbound e he) hnm,
    hvf, hvl, hnd⟩

theorem setRel_nil (n : Nat) : SetRel n [] [] :=
  ⟨[], List.Perm.refl _, rfl, List.Pairwise.nil, by simp, by simp, by simp,
    by simp [tagsOf]⟩

/-- A tag is resident on the F side iff it is resident on the L side. -/
theorem setRel_none_iff (n t : Nat) (f l : List Line) (h : SetRel n f l) :
    hitSplit t f = none ↔ hitSplit t l = none := by
  obtain ⟨s, hperm, htags, -, -, hvf, hvl, -⟩ := h
  have hmemiff : t ∈ tagsOf f ↔ t ∈ tagsOf l := by
    rw [← htags]
    exact (hperm.map Line.tag).mem_iff
  constructor
  · intro hf
    rw [hitSplit_none_iff]
    rintro e he ⟨het, -⟩
    exact miss_not_mem_tags t f hf hvf
      (hmemiff.mpr (het ▸ List.mem_map_of_mem Line.tag he))
  · intro hl
    rw [hitSplit_none_iff]
    rintro e he ⟨het, -⟩
    exact miss_not_mem_tags t l hl hvl
      (hmemiff.mp (het ▸ List.mem_map_of_mem Line.tag he))

/-- Appending the freshly stamped line on both sides preserves the
relation. -/
theorem setRel_install_notfull (n t : Nat) (f l : List Line)
    (h : SetRel n f l) (hmiss : t ∉ tagsOf f) :
    SetRel (n + 1) (f ++ [⟨t, true, n + 1⟩]) (l ++ [⟨t, true, n + 1⟩]) := by
  obtain ⟨s, hperm, htags, hsort, hbound, hvf, hvl, hnd⟩ := h
  refine ⟨s ++ [⟨t, true, n + 1⟩], hperm.append_right _, ?_, ?_, ?_, ?_, ?_, ?_⟩
  · simp only [tagsOf, List.map_append, List.map_cons, List.map_nil]
    rw [show s.map Line.tag = f.map Line.tag from htags]
  · simp only [List.map_append, List.map_cons, List.map_nil]
    rw [List.pairwise_append]
    refine ⟨hsort, by simp, ?_⟩
    intro x hx y hy
    obtain ⟨e, he, rfl⟩ := List.mem_map.mp hx
    simp only [List.mem_singleton] at hy
    subst hy
    exact Nat.lt_succ_of_le (hbound e he)
  · intro e he
    rcases List.mem_append.mp he with h' | h'
    · exact le_trans (hbound e h') (Nat.le_succ n)
    · obtain rfl := List.mem_singleton.mp h'
      exact le_rfl
  · intro e he
    rcases List.mem_append.mp he with h' | h'
    · exact hvf e h'
    · obtain rfl := List.mem_singleton.mp h'
      rfl
  · intro e he
    rcases List.mem_append.mp he with h' | h'
    · exact hvl e h'
    · obtain rfl := List.mem_singleton.mp h'
      rfl
  · have : tagsOf (f ++ [(⟨t, true, n + 1⟩ : Line)]) = tagsOf f ++ [t] := by
      simp [tagsOf]
    rw [this, List.Perm.nodup_iff (List.perm_append_singleton _ _)]
    exact List.nodup_cons.mpr ⟨hmiss, hnd⟩

/-- On a full set, the LRU victim is the head of the sorted companion
list: its position is in range, it holds the entry with the minimal key,
and removing it leaves a permutation of the sorted tail. -/
theorem lru_victim_head (l : List Line) (e0 : Line) (srest : List Line)
    (hperm : List.Perm (e0 :: srest) l)
    (hsort : List.Pairwise (fun x y => x < y)
      ((e0 :: srest).map Line.order_key)) :
    lruVictim l < l.length ∧
    l.getD (lruVictim l) ⟨0, false, 0⟩ = e0 ∧
    List.Perm srest (l.take (lruVictim l) ++ l.drop (lruVictim l + 1)) := by
  have hlen : l.length = srest.length + 1 := by
    have := hperm.length_eq
    simpa using this.symm
  have hne : l ≠ [] := by
    intro h
    rw [h] at hlen
    simp at hlen
  obtain ⟨hv, hminAt, -⟩ := lruVictim_is_first_min l hne
  have hx_eq : l.getD (lruVictim l) ⟨0, false, 0⟩ = l[lruVictim l] := by
    simp [List.getD_eq_getElem?_getD, List.getElem?_eq_getElem hv]
  have hx_mem : l.getD (lruVictim l) ⟨0, false, 0⟩ ∈ l := by
    rw [hx_eq]
    exact List.getElem_mem hv
  have hx_min : ∀ z ∈ l,
      (l.getD (lruVictim l) ⟨0, false, 0⟩).order_key ≤ z.order_key := by
    intro z hz
    obtain ⟨j, hj, rfl⟩ := List.mem_iff_getElem.mp hz
    have := hminAt j hj
    simpa [keyAt, List.getD_eq_getElem?_getD, List.getElem?_eq_getElem hv,
      List.getElem?_eq_getElem hj] using this
  have hsort' : (∀ a ∈ srest, e0.order_key < a.order_key) ∧
      List.Pairwise (fun x y => x < y) (srest.map Line.order_key) := by
    simpa using hsort
  have he0_min : ∀ z ∈ e0 :: srest, e0.order_key ≤ z.order_key := by
    intro z hz
    rcases List.mem_cons.mp hz with rfl | hz'
    · exact le_rfl
    · exact le_of_lt (hsort'.1 z hz')
  have hkeys_nd : ((e0 :: srest).map Line.order_key).Nodup :=
    hsort.imp (fun h => Nat.ne_of_lt h)
  have hx_in_s : l.getD (lruVictim l) ⟨0, false, 0⟩ ∈ e0 :: srest :=
    hperm.symm.subset hx_mem
  have he0_in_l : e0 ∈ l := hperm.subset (List.mem_cons_self _ _)
  have hkey_eq : (l.getD (lruVictim l) ⟨0, false, 0⟩).order_key
      = e0.order_key :=
    le_antisymm (hx_min e0 he0_in_l)
      (he0_min _ hx_in_s)
  have hx_e0 : l.getD (lruVictim l) ⟨0, false, 0⟩ = e0 :=
    List.inj_on_of_nodup_map hkeys_nd hx_in_s (List.mem_cons_self _ _) hkey_eq
  refine ⟨hv, hx_e0, ?_⟩
  have hdecomp : l = l.take (lruVictim l) ++
      l[lruVictim l] :: l.drop (lruVictim l + 1) := by
    conv_lhs => rw [← List.take_append_drop (lruVictim l) l]
    rw [List.drop_eq_getElem_cons hv]
  have hlperm : List.Perm l (l[lruVictim l] ::
      (l.take (lruVictim l) ++ l.drop (lruVictim l + 1))) := by
    conv_lhs => rw [hdecomp]
    exact List.perm_middle
  have : List.Perm (e0 :: srest)
      (e0 :: (l.take (lruVictim l) ++ l.drop (lruVictim l + 1))) := by
    refine hperm.trans ?_
    rw [← hx_e0, hx_eq]
    exact hlperm
  exact this.cons_inv

/-- Full-set install: FIFO pops the front and appends, LRU overwrites the
minimal-key victim in place; the results remain related. -/
theorem setRel_install_full (n t : Nat) (f l : List Line)
    (h : SetRel n f l) (hlenpos : 0 < l.length) (hmiss : t ∉ tagsOf f) :
    SetRel (n + 1) (f.tail ++ [⟨t, true, n + 1⟩])
      (l.set (lruVictim l) ⟨t, true, n + 1⟩) := by
  obtain ⟨s, hperm, htags, hsort, hbound, hvf, hvl, hnd⟩ := h
  cases s with
  | nil =>
    have := hperm.length_eq
    simp at this
    omega
  | cons e0 srest =>
    obtain ⟨hv, hget, hrem⟩ := lru_victim_head l e0 srest hperm hsort
    cases f with
    | nil =>
      have h2 : (tagsOf ((e0 :: srest) : List Line)).length
          = (tagsOf ([] : List Line)).length := congrArg List.length htags
      simp [tagsOf] at h2
    | cons fh ft =>
      have htag_cons : e0.tag = fh.tag ∧ tagsOf srest = tagsOf ft := by
        have := htags
        simp only [tagsOf, List.map_cons, List.cons.injEq] at this
        exact this
      have hset_eq : l.set (lruVictim l) ⟨t, true, n + 1⟩ =
          l.take (lruVictim l) ++ ⟨t, true, n + 1⟩ ::
            l.drop (lruVictim l + 1) :=
        List.set_eq_take_cons_drop _ hv
      have hsort' : (∀ a ∈ srest, e0.order_key < a.order_key) ∧
          List.Pairwise (fun x y => x < y) (srest.map Line.order_key) := by
        simpa using hsort
      refine ⟨srest ++ [⟨t, true, n + 1⟩], ?_, ?_, ?_, ?_, ?_, ?_, ?_⟩
      · refine List.Perm.trans (List.perm_append_singleton _ _) ?_
        refine List.Perm.trans (List.Perm.cons _ hrem) ?_
        rw [hset_eq]
        exact List.perm_middle.symm
      · simp only [tagsOf, List.map_append, List.map_cons, List.map_nil,
          List.tail_cons]
        rw [show srest.map Line.tag = ft.map Line.tag from htag_cons.2]
      · simp only [List.map_append, List.map_cons, List.map_nil]
        rw [List.pairwise_append]
        refine ⟨hsort'.2, by simp, ?_⟩
        intro x hx y hy
        simp only [List.mem_singleton] at hy
        subst hy
        obtain ⟨e, he, rfl⟩ := List.mem_map.mp hx
        exact Nat.lt_succ_of_le (hbound e (List.mem_cons_of_mem _ he))
      · intro e he
        rcases List.mem_append.mp he with h' | h'
        · exact le_trans (hbound e (List.mem_cons_of_mem _ h'))
            (Nat.le_succ n)
        · obtain rfl := List.mem_singleton.mp h'
          exact le_rfl
      · intro e he
        rcases List.mem_append.mp he with h' | h'
        · exact hvf e (List.mem_cons_of_mem _ (by simpa using h'))
        · obtain rfl := List.mem_singleton.mp h'
          rfl
      · intro e he
        rcases List.mem_or_eq_of_mem_set he with h' | rfl
        · exact hvl e h'
        · rfl
      · have : tagsOf (ft.tail ++ [(⟨t, true, n + 1⟩ : Line)]) =
            tagsOf ft.tail ++ [t] := by simp [tagsOf]
        simp only [List.tail_cons]
        have heq : tagsOf (ft ++ [(⟨t, true, n + 1⟩ : Line)]) =
            tagsOf ft ++ [t] := by simp [tagsOf]
        rw [heq, List.Perm.nodup_iff (List.perm_append_singleton _ _)]
        refine List.nodup_cons.mpr ⟨?_, (List.nodup_cons.mp (by
          simpa [tagsOf] using hnd)).2⟩
        intro hmem
        exact hmiss (by
          simp only [tagsOf, List.map_cons]
          exact List.mem_cons_of_mem _ hmem)

/-- A hit touches the unique entry with the accessed tag: FIFO moves it to
the back of the list, LRU rewrites its key to the new access counter in
place; the results remain related. -/
theorem setRel_touch (n t : Nat) (f l : List Line)
    (pf qf pl ql : List Line) (ef el : Line)
    (h : SetRel n f l)
    (hf : hitSplit t f = some (pf, ef, qf))
    (hl : hitSplit t l = some (pl, el, ql)) :
    SetRel (n + 1) ((pf ++ qf) ++ [ef])
      (pl ++ ({ el with order_key := n + 1 } :: ql)) := by
  obtain ⟨s, hperm, htags, hsort, hbound, hvf, hvl, hnd⟩ := h
  obtain ⟨hfeq, hftag, hfval, -⟩ := hitSplit_some_spec t f pf ef qf hf
  obtain ⟨hleq, hltag, hlval, -⟩ := hitSplit_some_spec t l pl el ql hl
  -- split the sorted companion list at the unique occurrence of tag `t`
  have htags' : s.map Line.tag = pf.map Line.tag ++ t :: qf.map Line.tag := by
    have := htags
    rw [hfeq] at this
    simpa [tagsOf, hftag] using this
  obtain ⟨s1, s2, hs12, hs1, hs2⟩ := List.map_eq_append_iff.mp htags'
  obtain ⟨es, qs, hs2', hes_tag, hqs⟩ := List.map_eq_cons_iff.mp hs2
  subst hs12
  subst hs2'
  have hnd_s : (tagsOf (s1 ++ es :: qs)).Nodup := by
    rw [htags]
    exact hnd
  have hnd_l : (tagsOf l).Nodup := (hperm.map Line.tag).nodup_iff.mp hnd_s
  have hes_mem_l : es ∈ l :=
    hperm.subset (List.mem_append_right s1 (List.mem_cons_self es qs))
  have hel_mem_l : el ∈ l := by
    rw [hleq]
    exact List.mem_append_right pl (List.mem_cons_self el ql)
  have hes_el : es = el := by
    refine List.inj_on_of_nodup_map hnd_l hes_mem_l hel_mem_l ?_
    rw [hes_tag, hltag]
  subst hes_el
  -- cancel the common entry to relate the residues
  have hres : List.Perm (s1 ++ qs) (pl ++ ql) := by
    have h1 : List.Perm (s1 ++ es :: qs) (es :: (s1 ++ qs)) :=
      List.perm_middle
    have h2 : List.Perm l (es :: (pl ++ ql)) := by
      rw [hleq]
      exact List.perm_middle
    exact (h1.symm.trans (hperm.trans h2)).cons_inv
  refine ⟨(s1 ++ qs) ++ [{ es with order_key := n + 1 }], ?_, ?_, ?_, ?_, ?_,
    ?_, ?_⟩
  · refine List.Perm.trans (List.perm_append_singleton _ _) ?_
    refine List.Perm.trans (List.Perm.cons _ hres) ?_
    exact List.perm_middle.symm
  · simp only [tagsOf, List.map_append, List.map_cons, List.map_nil]
    rw [hs1, hqs]
    simp [hftag, hes_tag]
  · simp only [List.map_append, List.map_cons, List.map_nil]
    rw [List.pairwise_append]
    refine ⟨?_, by simp, ?_⟩
    · have hsub : List.Sublist
          (s1.map Line.order_key ++ qs.map Line.order_key)
          (s1.map Line.order_key ++ es.order_key :: qs.map Line.order_key) :=
        (List.Sublist.refl _).append (List.sublist_cons_self _ _)
      have hsort2 : List.Pairwise (fun x y => x < y)
          (s1.map Line.order_key ++
            es.order_key :: qs.map Line.order_key) := by
        simpa using hsort
      exact List.Pairwise.sublist hsub hsort2
    · intro x hx y hy
      simp only [List.mem_singleton] at hy
      subst hy
      rcases List.mem_append.mp hx with h' | h'
      · obtain ⟨e, he, rfl⟩ := List.mem_map.mp h'
        exact Nat.lt_succ_of_le (hbound e (List.mem_append_left _ he))
      · obtain ⟨e, he, rfl⟩ := List.mem_map.mp h'
        exact Nat.lt_succ_of_le (hbound e
          (List.mem_append_right _ (List.mem_cons_of_mem _ he)))
  · intro e he
    rcases List.mem_append.mp he with h' | h'
    · have he' : e ∈ s1 ++ es :: qs := by
        rcases List.mem_append.mp h' with h'' | h''
        · exact List.mem_append_left _ h''
        · exact List.mem_append_right _ (List.mem_cons_of_mem _ h'')
      exact le_trans (hbound e he') (Nat.le_succ n)
    · obtain rfl := List.mem_singleton.mp h'
      exact le_rfl
  · intro e he
    rcases List.mem_append.mp he with h' | h'
    · have he' : e ∈ f := by
        rw [hfeq]
        rcases List.mem_append.mp h' with h'' | h''
        · exact List.mem_append_left _ h''
        · exact List.mem_append_right _ (List.mem_cons_of_mem _ h'')
      exact hvf e he'
    · rw [List.mem_singleton.mp h']
      exact hvf ef (by
        rw [hfeq]
        exact List.mem_append_right _ (List.mem_cons_self _ _))
  · intro e he
    rcases List.mem_append.mp he with h' | h'
    · exact hvl e (by rw [hleq]; exact List.mem_append_left _ h')
    · rcases List.mem_cons.mp h' with rfl | h''
      · simpa using hlval
      · exact hvl e (by
          rw [hleq]
          exact List.mem_append_right _ (List.mem_cons_of_mem _ h''))
  · have hperm_tags : List.Perm (tagsOf ((pf ++ qf) ++ [ef])) (tagsOf f) := by
      rw [hfeq]
      simp only [tagsOf, List.map_append, List.map_cons, List.map_nil]
      refine List.Perm.trans (List.perm_append_singleton _ _) ?_
      exact List.perm_middle.symm
    exact hperm_tags.nodup_iff.mpr hnd


theorem stateRel_lengths (stF stL : CacheState) (h : StateRel stF stL) :
    stF.sets.map List.length = stL.sets.map List.length := by
  apply List.ext_getElem?
  intro j
  rw [List.getElem?_map, List.getElem?_map]
  rcases h.rel j with ⟨h1, h2⟩ | ⟨f, l, h1, h2, hrel⟩
  · rw [h1, h2]
  · rw [h1, h2]
    simp [setRel_length _ _ _ hrel]

/-- One access preserves the 'F'/'L' bisimulation: either both runs raise
`IndexError`, or both succeed with related states. -/
theorem stateRel_step (ns bs as : Nat) (rand : Nat → Nat) (hpos : 0 < as)
    (stF stL : CacheState) (a : Nat) (hR : StateRel stF stL) :
    (access_cache ⟨ns, bs, as, .F⟩ rand stF a = none ∧
     access_cache ⟨ns, bs, as, .L⟩ rand stL a = none) ∨
    (∃ stF' stL',
      access_cache ⟨ns, bs, as, .F⟩ rand stF a = some stF' ∧
      access_cache ⟨ns, bs, as, .L⟩ rand stL a = some stL' ∧
      StateRel stF' stL') := by
  rcases hR.rel (idxOf ⟨ns, bs, as, .L⟩ a) with ⟨hF, hL⟩ | ⟨f, l, hF, hL, hrel⟩
  · exact Or.inl ⟨access_cache_none _ rand stF a hF,
      access_cache_none _ rand stL a hL⟩
  · right
    have hidx : idxOf ⟨ns, bs, as, .F⟩ a = idxOf ⟨ns, bs, as, .L⟩ a := rfl
    have htag : tagOf ⟨ns, bs, as, .F⟩ a = tagOf ⟨ns, bs, as, .L⟩ a := rfl
    have hltF : idxOf ⟨ns, bs, as, .L⟩ a < stF.sets.length :=
      (List.getElem?_eq_some_iff.mp hF).1
    have hltL : idxOf ⟨ns, bs, as, .L⟩ a < stL.sets.length :=
      (List.getElem?_eq_some_iff.mp hL).1
    cases hsplitL : hitSplit (tagOf ⟨ns, bs, as, .L⟩ a) l with
    | some v =>
      obtain ⟨pl, el, ql⟩ := v
      cases hsplitF : hitSplit (tagOf ⟨ns, bs, as, .L⟩ a) f with
      | none =>
        rw [(setRel_none_iff _ _ f l hrel).mp hsplitF] at hsplitL
        cases hsplitL
      | some w =>
        obtain ⟨pf, ef, qf⟩ := w
        refine ⟨_, _,
          access_cache_hit ⟨ns, bs, as, .F⟩ rand stF a f pf ef qf hF hsplitF,
          access_cache_hit ⟨ns, bs, as, .L⟩ rand stL a l pl el ql hL hsplitL,
          ?_⟩
        have hrel' := setRel_touch stL.total_accesses
          (tagOf ⟨ns, bs, as, .L⟩ a) f l pf qf pl ql ef el hrel hsplitF hsplitL
        constructor
        · simp [hitState, hR.total_eq]
        · simp [hitState, hR.hits_eq]
        · simp [hitState, hR.misses_eq]
        · simp [hitState, hR.comp_eq]
        · simp [hitState, hR.cap_eq]
        · simp [hitState, hR.conf_eq]
        · simp [hitState, hR.seen_eq]
        · simp [hitState, hR.len_eq]
        · intro j
          by_cases hji : j = idxOf ⟨ns, bs, as, .L⟩ a
          · subst hji
            right
            refine ⟨touchSet .F (stF.total_accesses + 1) pf ef qf,
              touchSet .L (stL.total_accesses + 1) pl el ql, ?_, ?_, ?_⟩
            · simp only [hitState]
              rw [hidx, List.getElem?_set_self hltF]
            · simp only [hitState]
              rw [List.getElem?_set_self hltL]
            · simp only [hitState, touchSet]
              exact hrel'
          · rcases hR.rel j with ⟨h1, h2⟩ | ⟨f', l', h1, h2, hrel''⟩
            · left
              constructor
              · simp only [hitState]
                rw [hidx, List.getElem?_set_ne (fun h => hji h.symm), h1]
              · simp only [hitState]
                rw [List.getElem?_set_ne (fun h => hji h.symm), h2]
            · right
              refine ⟨f', l', ?_, ?_, ?_⟩
              · simp only [hitState]
                rw [hidx, List.getElem?_set_ne (fun h => hji h.symm), h1]
              · simp only [hitState]
                rw [List.getElem?_set_ne (fun h => hji h.symm), h2]
              · exact setRel_mono _ _ _ _ (by simp [hitState]) hrel''
    | none =>
      have hsplitF : hitSplit (tagOf ⟨ns, bs, as, .L⟩ a) f = none :=
        (setRel_none_iff _ _ f l hrel).mpr hsplitL
      refine ⟨_, _,
        access_cache_miss ⟨ns, bs, as, .F⟩ rand stF a f hF hsplitF,
        access_cache_miss ⟨ns, bs, as, .L⟩ rand stL a l hL hsplitL, ?_⟩
      have hmiss_tag : tagOf ⟨ns, bs, as, .L⟩ a ∉ tagsOf f := by
        obtain ⟨s, -, -, -, -, hvf, -, -⟩ := hrel
        exact miss_not_mem_tags _ f hsplitF hvf
      have hic : decide ((tagOf ⟨ns, bs, as, .L⟩ a,
            idxOf ⟨ns, bs, as, .L⟩ a) ∉ stF.seen_tags)
          = decide ((tagOf ⟨ns, bs, as, .L⟩ a,
            idxOf ⟨ns, bs, as, .L⟩ a) ∉ stL.seen_tags) := by
        rw [hR.seen_eq]
      have hlen_fl : f.length = l.length := setRel_length _ _ _ hrel
      have hb : decide (as ≤ f.length) = decide (as ≤ l.length) := by
        rw [hlen_fl]
      have hcf : decide (ns * as ≤ (stF.sets.map List.length).sum)
          = decide (ns * as ≤ (stL.sets.map List.length).sum) := by
        rw [stateRel_lengths stF stL hR]
      constructor
      · simp [missState, hR.total_eq]
      · simp [missState, hR.hits_eq]
      · simp [missState, hR.misses_eq]
      · simp only [missState]
        rw [htag, hidx, hR.comp_eq, hic, hb, hcf]
      · simp only [missState]
        rw [htag, hidx, hR.cap_eq, hic, hb, hcf]
      · simp only [missState]
        rw [htag, hidx, hR.conf_eq, hic, hb, hcf]
      · simp only [missState]
        rw [htag, hidx, hR.seen_eq]
      · simp [missState, hR.len_eq]
      · intro j
        by_cases hji : j = idxOf ⟨ns, bs, as, .L⟩ a
        · subst hji
          right
          refine ⟨installSet .F rand as (stF.total_accesses + 1)
              (tagOf ⟨ns, bs, as, .L⟩ a) f (decide (as ≤ f.length)),
            installSet .L rand as (stL.total_accesses + 1)
              (tagOf ⟨ns, bs, as, .L⟩ a) l (decide (as ≤ l.length)),
            ?_, ?_, ?_⟩
          · simp only [missState]
            rw [htag, hidx, List.getElem?_set_self hltF]
          · simp only [missState]
            rw [List.getElem?_set_self hltL]
          · show SetRel (stL.total_accesses + 1) _ _
            by_cases hfull : as ≤ l.length
            · have hbt : decide (as ≤ l.length) = true := by
                simp [hfull]
              have hbtF : decide (as ≤ f.length) = true := by
                rw [hb]
                exact hbt
              rw [hbt, hbtF]
              have hinstF : installSet .F rand as (stF.total_accesses + 1)
                  (tagOf ⟨ns, bs, as, .L⟩ a) f true
                  = f.tail ++ [⟨tagOf ⟨ns, bs, as, .L⟩ a, true,
                      stF.total_accesses + 1⟩] := by
                simp [installSet]
              have hinstL : installSet .L rand as (stL.total_accesses + 1)
                  (tagOf ⟨ns, bs, as, .L⟩ a) l true
                  = l.set (lruVictim l) ⟨tagOf ⟨ns, bs, as, .L⟩ a, true,
                      stL.total_accesses + 1⟩ := by
                simp [installSet]
              rw [hinstF, hinstL, hR.total_eq]
              exact setRel_install_full stL.total_accesses
                (tagOf ⟨ns, bs, as, .L⟩ a) f l hrel (by omega) hmiss_tag
            · have hbt : decide (as ≤ l.length) = false := by
                simp [hfull]
              have hbtF : decide (as ≤ f.length) = false := by
                rw [hb]
                exact hbt
              rw [hbt, hbtF]
              have hinstF : installSet .F rand as (stF.total_accesses + 1)
                  (tagOf ⟨ns, bs, as, .L⟩ a) f false
                  = f ++ [⟨tagOf ⟨ns, bs, as, .L⟩ a, true,
                      stF.total_accesses + 1⟩] := by
                simp [installSet]
              have hinstL : installSet .L rand as (stL.total_accesses + 1)
                  (tagOf ⟨ns, bs, as, .L⟩ a) l false
                  = l ++ [⟨tagOf ⟨ns, bs, as, .L⟩ a, true,
                      stL.total_accesses + 1⟩] := by
                simp [installSet]
              rw [hinstF, hinstL, hR.total_eq]
              exact setRel_install_notfull stL.total_accesses
                (tagOf ⟨ns, bs, as, .L⟩ a) f l hrel hmiss_tag
        · rcases hR.rel j with ⟨h1, h2⟩ | ⟨f', l', h1, h2, hrel''⟩
          · left
            constructor
            · simp only [missState]
              rw [hidx, List.getElem?_set_ne (fun h => hji h.symm), h1]
            · simp only [missState]
              rw [List.getElem?_set_ne (fun h => hji h.symm), h2]
          · right
            refine ⟨f', l', ?_, ?_, ?_⟩
            · simp only [missState]
              rw [hidx, List.getElem?_set_ne (fun h => hji h.symm), h1]
            · simp only [missState]
              rw [List.getElem?_set_ne (fun h => hji h.symm), h2]
            · exact setRel_mono _ _ _ _ (by simp [missState]) hrel''


theorem stateRel_init (ns bs as : Nat) :
    StateRel (initState ⟨ns, bs, as, .F⟩) (initState ⟨ns, bs, as, .L⟩) := by
  refine ⟨rfl, rfl, rfl, rfl, rfl, rfl, rfl, rfl, ?_⟩
  intro j
  by_cases hj : j < ns
  · right
    refine ⟨[], [], ?_, ?_, setRel_nil _⟩ <;>
      simp [initState, List.getElem?_replicate, hj]
  · left
    constructor <;> simp [initState, List.getElem?_replicate, hj]

theorem stateRel_runFrom (ns bs as : Nat) (rand : Nat → Nat) (hpos : 0 < as) :
    ∀ (tr : List Nat) (stF stL : CacheState), StateRel stF stL →
      (runFrom ⟨ns, bs, as, .F⟩ rand stF tr = none ∧
       runFrom ⟨ns, bs, as, .L⟩ rand stL tr = none) ∨
      (∃ stF' stL',
        runFrom ⟨ns, bs, as, .F⟩ rand stF tr = some stF' ∧
        runFrom ⟨ns, bs, as, .L⟩ rand stL tr = some stL' ∧
        StateRel stF' stL') := by
  intro tr
  induction tr with
  | nil =>
    intro stF stL hR
    exact Or.inr ⟨stF, stL, rfl, rfl, hR⟩
  | cons a rest ih =>
    intro stF stL hR
    rcases stateRel_step ns bs as rand hpos stF stL a hR with
      ⟨h1, h2⟩ | ⟨stF1, stL1, h1, h2, hR1⟩
    · left
      constructor
      · simp [runFrom, h1]
      · simp [runFrom, h2]
    · rcases ih stF1 stL1 hR1 with ⟨g1, g2⟩ | ⟨stF', stL', g1, g2, hR'⟩
      · left
        constructor
        · simp only [runFrom, h1]
          exact g1
        · simp only [runFrom, h2]
          exact g2
      · right
        refine ⟨stF', stL', ?_, ?_, hR'⟩
        · simp only [runFrom, h1]
          exact g1
        · simp only [runFrom, h2]
          exact g2

/-- **C10**: for every valid configuration and every trace, running the
simulator with policy 'F' and with policy 'L' yields the same outcome:
both runs fail on the same traces, and on success all six aggregate
counters agree (applied to every prefix of a trace this gives the same
hit/miss outcome on every access).  Internally, a FIFO hit moves the
touched entry to the back of the list and installs append at the back, so
the front entry popped by FIFO eviction is the least-recently-touched
entry — the same victim the LRU minimal-`order_key` scan selects, the
`order_key`s of resident entries being pairwise distinct. -/
theorem C10_fifo_lru_same_counters (ns bs as : Nat) (rand : Nat → Nat)
    (hv : Cfg.Valid ⟨ns, bs, as, .F⟩) (tr : List Nat) :
    (run ⟨ns, bs, as, .F⟩ rand tr).map counters
      = (run ⟨ns, bs, as, .L⟩ rand tr).map counters := by
  rcases stateRel_runFrom ns bs as rand hv.2.2 tr
      (initState ⟨ns, bs, as, .F⟩) (initState ⟨ns, bs, as, .L⟩)
      (stateRel_init ns bs as) with ⟨h1, h2⟩ | ⟨stF', stL', h1, h2, hR⟩
  · show (runFrom ⟨ns, bs, as, .F⟩ rand _ tr).map counters
      = (runFrom ⟨ns, bs, as, .L⟩ rand _ tr).map counters
    rw [h1, h2]
  · have hc : counters stF' = counters stL' := by
      simp [counters, hR.total_eq, hR.hits_eq, hR.misses_eq, hR.comp_eq,
        hR.cap_eq, hR.conf_eq]
    show (runFrom ⟨ns, bs, as, .F⟩ rand _ tr).map counters
      = (runFrom ⟨ns, bs, as, .L⟩ rand _ tr).map counters
    rw [h1, h2]
    simp [hc]

/-- Witness for C10 on the trace `[0, 1, 0, 2]` with a 2-way set. -/
theorem C10_fifo_lru_same_counters_witness :
    (Cfg.Valid ⟨1, 1, 2, .F⟩) ∧
    (run ⟨1, 1, 2, .F⟩ (fun _ => 0) [0, 1, 0, 2]).map counters
      = (run ⟨1, 1, 2, .L⟩ (fun _ => 0) [0, 1, 0, 2]).map counters :=
  ⟨by decide,
   C10_fifo_lru_same_counters 1 1 2 (fun _ => 0) (by decide) [0, 1, 0, 2]⟩

/-! ## `bit_length` and ceiling base-2 logarithm -/

theorem bitLenAux_le_iff (fuel : Nat) :
    ∀ n k, n ≤ fuel → (bitLenAux fuel n ≤ k ↔ n < 2 ^ k) := by
  induction fuel with
  | zero =>
    intro n k h
    obtain rfl : n = 0 := Nat.le_zero.mp h
    simp [bitLenAux, Nat.pos_pow_of_pos k]
  | succ fuel ih =>
    intro n k h
    by_cases h0 : n = 0
    · subst h0
      simp [bitLenAux, Nat.pos_pow_of_pos k]
    · rw [show bitLenAux (fuel + 1) n = bitLenAux fuel (n / 2) + 1 by
        simp [bitLenAux, h0]]
      have hd : n / 2 ≤ fuel := by omega
      cases k with
      | zero =>
        simp only [Nat.le_zero, pow_zero]
        omega
      | succ k =>
        rw [Nat.add_le_add_iff_right, ih (n / 2) k hd, pow_succ]
        omega

theorem bit_length_le_iff (n k : Nat) : bit_length n ≤ k ↔ n < 2 ^ k :=
  bitLenAux_le_iff n n k le_rfl

/-- The source's `log2` (bit length of `x - 1`) is the ceiling base-2
logarithm for positive arguments. -/
theorem log2_eq_clog (n : Nat) (h : 0 < n) : log2 n = Nat.clog 2 n := by
  refine eq_of_forall_ge_iff fun k => ?_
  rw [log2, bit_length_le_iff, ← Nat.le_pow_iff_clog_le (by norm_num)]
  have h2 : 0 < 2 ^ k := Nat.pos_pow_of_pos k (by norm_num)
  omega

/-- **C7**: address decoding is pure and deterministic; for every address and
validated configuration it returns
`index = (address >> offset_bits) & ((1 << index_bits) - 1)` (that is,
`address / 2^offset_bits % 2^index_bits`) and
`tag = address >> (offset_bits + index_bits)` (that is,
`address / 2^(offset_bits + index_bits)`), where `offset_bits` and
`index_bits` are the ceiling base-2 logarithms of `bsize` and `nsets`,
computed as the bit length of `n - 1` (so `n = 1` yields 0 bits). -/
theorem C7_address_decoding (c : Cfg) (address : Nat) (hv : c.Valid) :
    get_address_components c address =
      (address / 2 ^ (c.offset_bits + c.index_bits),
       address / 2 ^ c.offset_bits % 2 ^ c.index_bits) ∧
    c.offset_bits = Nat.clog 2 c.bsize ∧
    c.index_bits = Nat.clog 2 c.nsets ∧
    c.offset_bits = bit_length (c.bsize - 1) ∧
    c.index_bits = bit_length (c.nsets - 1) ∧
    log2 1 = 0 := by
  refine ⟨?_, log2_eq_clog _ hv.2.1, log2_eq_clog _ hv.1, rfl, rfl, rfl⟩
  unfold get_address_components
  simp [Nat.shiftRight_eq_div_pow, Nat.one_shiftLeft,
    Nat.and_pow_two_sub_one_eq_mod]

/-- Witness for C7 at the configuration `nsets=4, bsize=8, assoc=2` and
address 91. -/
theorem C7_address_decoding_witness :
    (Cfg.Valid ⟨4, 8, 2, .L⟩) ∧
    (get_address_components ⟨4, 8, 2, .L⟩ 91 =
      (91 / 2 ^ (Cfg.offset_bits ⟨4, 8, 2, .L⟩ + Cfg.index_bits ⟨4, 8, 2, .L⟩),
       91 / 2 ^ Cfg.offset_bits ⟨4, 8, 2, .L⟩ %
         2 ^ Cfg.index_bits ⟨4, 8, 2, .L⟩) ∧
     Cfg.offset_bits ⟨4, 8, 2, .L⟩ = Nat.clog 2 8 ∧
     Cfg.index_bits ⟨4, 8, 2, .L⟩ = Nat.clog 2 4 ∧
     Cfg.offset_bits ⟨4, 8, 2, .L⟩ = bit_length 7 ∧
     Cfg.index_bits ⟨4, 8, 2, .L⟩ = bit_length 3 ∧
     log2 1 = 0) :=
  ⟨by decide, C7_address_decoding ⟨4, 8, 2, .L⟩ 91 (by decide)⟩

/-! ## Concrete end-to-end runs (claims C3 and C4) -/

/-- **C4 counterexample**: with `nsets=1, bsize=1, assoc=2`, policy LRU and
trace `[0,1,0,2]`, access 4 touches the never-seen pair (tag 2, index 0),
so rule 1 of the classifier fires and the miss is **compulsory**: the final
counters are (4, 1, 3, 3, 0, 0), not the claimed (4, 1, 3, 2, 1, 0) with a
capacity miss. -/
theorem C4_counterexample :
    (run ⟨1, 1, 2, .L⟩ (fun _ => 0) [0, 1, 0, 2]).map counters
        = some (4, 1, 3, 3, 0, 0) ∧
    (run ⟨1, 1, 2, .L⟩ (fun _ => 0) [0, 1, 0, 2]).map counters
        ≠ some (4, 1, 3, 2, 1, 0) :=
  ⟨by decide, by decide⟩

/-- **C4 amended**: same configuration and trace; accesses 1, 2, 4 are
misses classified compulsory, access 3 is a hit, and the final counters are
`total_accesses=4, hits=1, misses=3, compulsory_misses=3, capacity_misses=0,
conflict_misses=0`. -/
theorem C4_amended_example_run :
    (run ⟨1, 1, 2, .L⟩ (fun _ => 0) [0]).map counters
        = some (1, 0, 1, 1, 0, 0) ∧
    (run ⟨1, 1, 2, .L⟩ (fun _ => 0) [0, 1]).map counters
        = some (2, 0, 2, 2, 0, 0) ∧
    (run ⟨1, 1, 2, .L⟩ (fun _ => 0) [0, 1, 0]).map counters
        = some (3, 1, 2, 2, 0, 0) ∧
    (run ⟨1, 1, 2, .L⟩ (fun _ => 0) [0, 1, 0, 2]).map counters
        = some (4, 1, 3, 3, 0, 0) :=
  ⟨by decide, by decide, by decide, by decide⟩

/-- **C3 counterexample**: under policy 'F' with one set of associativity 2,
after `[0,1,0]` both tags 0 and 1 are resident with tag 0 inserted earliest,
yet the miss on tag 2 evicts tag **1** (final residents `[0,2]`), not the
earliest-inserted tag 0; and without the interleaved hit (`[0,1,2]`) the same
miss evicts tag **0** (final residents `[1,2]`) — so a hit on the oldest
resident does change the victim. -/
theorem C3_counterexample :
    (run ⟨1, 1, 2, .F⟩ (fun _ => 0) [0, 1, 0]).map
        (fun st => st.sets.map tagsOf) = some [[1, 0]] ∧
    (run ⟨1, 1, 2, .F⟩ (fun _ => 0) [0, 1, 0, 2]).map
        (fun st => st.sets.map tagsOf) = some [[0, 2]] ∧
    (run ⟨1, 1, 2, .F⟩ (fun _ => 0) [0, 1, 2]).map
        (fun st => st.sets.map tagsOf) = some [[1, 2]] :=
  ⟨by decide, by decide, by decide⟩

/-- **C3 amended**: under policy 'F', a hit moves the touched entry to the
back of the set list, and on a full-set miss the victim is the entry at the
front of the list — i.e. the least-recently-touched resident, so interleaved
hits can alter the subsequent eviction order. -/
theorem C3_amended_fifo_step (cfg : Cfg) (rand : Nat → Nat) (st : CacheState)
    (a : Nat) (sc : List Line) (hF : cfg.subst = .F)
    (hsc : st.sets[idxOf cfg a]? = some sc) :
    (∀ p e q, hitSplit (tagOf cfg a) sc = some (p, e, q) →
      access_cache cfg rand st a = some
        { st with
            sets := st.sets.set (idxOf cfg a) ((p ++ q) ++ [e])
            total_accesses := st.total_accesses + 1
            hits := st.hits + 1 }) ∧
    (hitSplit (tagOf cfg a) sc = none → cfg.assoc ≤ sc.length →
      ∃ st', access_cache cfg rand st a = some st' ∧
        st'.sets = st.sets.set (idxOf cfg a)
          (sc.tail ++ [⟨tagOf cfg a, true, st.total_accesses + 1⟩])) := by
  constructor
  · intro p e q hsplit
    rw [access_cache_hit cfg rand st a sc p e q hsc hsplit]
    simp [hitState, touchSet, hF]
  · intro hm hfull
    refine ⟨_, access_cache_miss cfg rand st a sc hsc hm, ?_⟩
    simp [missState, installSet, hF, hfull]

/-- Witness for the amended C3 at a full set under policy 'F'. -/
theorem C3_amended_fifo_step_witness :
    ((⟨[[⟨0, true, 1⟩, ⟨1, true, 2⟩]], 2, 0, 2, 2, 0, 0,
        {(1, 0), (0, 0)}⟩ : CacheState).sets[idxOf ⟨1, 1, 2, .F⟩ 2]?
      = some [⟨0, true, 1⟩, ⟨1, true, 2⟩]) ∧
    (hitSplit (tagOf ⟨1, 1, 2, .F⟩ 2) [⟨0, true, 1⟩, ⟨1, true, 2⟩] = none) ∧
    ((⟨1, 1, 2, .F⟩ : Cfg).assoc ≤
      ([⟨0, true, 1⟩, ⟨1, true, 2⟩] : List Line).length) ∧
    (∃ st', access_cache ⟨1, 1, 2, .F⟩ (fun _ => 0)
        ⟨[[⟨0, true, 1⟩, ⟨1, true, 2⟩]], 2, 0, 2, 2, 0, 0, {(0, 0), (1, 0)}⟩ 2
        = some st' ∧
      st'.sets = (⟨[[⟨0, true, 1⟩, ⟨1, true, 2⟩]], 2, 0, 2, 2, 0, 0,
          {(1, 0), (0, 0)}⟩ : CacheState).sets.set (idxOf ⟨1, 1, 2, .F⟩ 2)
        (([⟨0, true, 1⟩, ⟨1, true, 2⟩] : List Line).tail ++
          [⟨tagOf ⟨1, 1, 2, .F⟩ 2, true, 2 + 1⟩])) :=
  ⟨by decide, by decide, by decide,
    (C3_amended_fifo_step ⟨1, 1, 2, .F⟩ (fun _ => 0)
        ⟨[[⟨0, true, 1⟩, ⟨1, true, 2⟩]], 2, 0, 2, 2, 0, 0, {(0, 0), (1, 0)}⟩ 2
        [⟨0, true, 1⟩, ⟨1, true, 2⟩] rfl (by decide)).2 (by decide) (by decide)⟩

/-! ## C1: the 3C classification chain -/

/-- **C1**: on every miss, exactly one miss sub-counter is incremented,
chosen by the priority evaluated on the state measured before the new line
is installed: (1) a never-recorded (tag, index) is compulsory and the pair
is recorded; (2) else a full set in a full cache is capacity; (3) else a
full set is conflict; (4) else (set not full) compulsory. -/
theorem C1_missClassification (cfg : Cfg) (rand : Nat → Nat) (st : CacheState)
    (a : Nat) (sc : List Line) (st' : CacheState)
    (hsc : st.sets[idxOf cfg a]? = some sc)
    (hmiss : hitSplit (tagOf cfg a) sc = none)
    (hstep : access_cache cfg rand st a = some st') :
    st'.misses = st.misses + 1 ∧
    st'.compulsory_misses + st'.capacity_misses + st'.conflict_misses
      = (st.compulsory_misses + st.capacity_misses + st.conflict_misses) + 1 ∧
    ((tagOf cfg a, idxOf cfg a) ∉ st.seen_tags →
      st'.compulsory_misses = st.compulsory_misses + 1 ∧
      st'.capacity_misses = st.capacity_misses ∧
      st'.conflict_misses = st.conflict_misses ∧
      (tagOf cfg a, idxOf cfg a) ∈ st'.seen_tags) ∧
    ((tagOf cfg a, idxOf cfg a) ∈ st.seen_tags →
      cfg.assoc ≤ sc.length →
      cfg.nsets * cfg.assoc ≤ (st.sets.map List.length).sum →
      st'.capacity_misses = st.capacity_misses + 1 ∧
      st'.compulsory_misses = st.compulsory_misses ∧
      st'.conflict_misses = st.conflict_misses) ∧
    ((tagOf cfg a, idxOf cfg a) ∈ st.seen_tags →
      cfg.assoc ≤ sc.length →
      ¬ cfg.nsets * cfg.assoc ≤ (st.sets.map List.length).sum →
      st'.conflict_misses = st.conflict_misses + 1 ∧
      st'.compulsory_misses = st.compulsory_misses ∧
      st'.capacity_misses = st.capacity_misses) ∧
    ((tagOf cfg a, idxOf cfg a) ∈ st.seen_tags →
      ¬ cfg.assoc ≤ sc.length →
      st'.compulsory_misses = st.compulsory_misses + 1 ∧
      st'.capacity_misses = st.capacity_misses ∧
      st'.conflict_misses = st.conflict_misses) := by
  rw [access_cache_miss cfg rand st a sc hsc hmiss] at hstep
  obtain rfl := (Option.some.inj hstep).symm
  refine ⟨rfl, ?_, ?_, ?_, ?_, ?_⟩
  · by_cases h1 : (tagOf cfg a, idxOf cfg a) ∈ st.seen_tags <;>
      by_cases h2 : cfg.assoc ≤ sc.length <;>
      by_cases h3 : cfg.nsets * cfg.assoc ≤ (st.sets.map List.length).sum <;>
      simp [missState, compInc, capInc, confInc, h1, h2, h3] <;> omega
  · intro h1
    simp [missState, compInc, capInc, confInc, h1]
  · intro h1 h2 h3
    simp [missState, compInc, capInc, confInc, h1, h2, h3]
  · intro h1 h2 h3
    simp [missState, compInc, capInc, confInc, h1, h2, h3]
  · intro h1 h2
    simp [missState, compInc, capInc, confInc, h1, h2]

/-- Witness for C1: the first access of a fresh one-line cache is a
compulsory miss. -/
theorem C1_missClassification_witness :
    ((initState ⟨1, 1, 1, .L⟩).sets[idxOf ⟨1, 1, 1, .L⟩ 0]? = some []) ∧
    (hitSplit (tagOf ⟨1, 1, 1, .L⟩ 0) [] = none) ∧
    (access_cache ⟨1, 1, 1, .L⟩ (fun _ => 0) (initState ⟨1, 1, 1, .L⟩) 0
      = some ⟨[[⟨0, true, 1⟩]], 1, 0, 1, 1, 0, 0, {(0, 0)}⟩) ∧
    ((⟨[[⟨0, true, 1⟩]], 1, 0, 1, 1, 0, 0, {(0, 0)}⟩ : CacheState).misses
        = (initState ⟨1, 1, 1, .L⟩).misses + 1) ∧
    (((tagOf ⟨1, 1, 1, .L⟩ 0, idxOf ⟨1, 1, 1, .L⟩ 0)
        ∉ (initState ⟨1, 1, 1, .L⟩).seen_tags) →
      (⟨[[⟨0, true, 1⟩]], 1, 0, 1, 1, 0, 0, {(0, 0)}⟩ : CacheState).compulsory_misses
        = (initState ⟨1, 1, 1, .L⟩).compulsory_misses + 1) :=
  ⟨by decide, by decide, by decide,
   (C1_missClassification ⟨1, 1, 1, .L⟩ (fun _ => 0) (initState ⟨1, 1, 1, .L⟩) 0
      [] ⟨[[⟨0, true, 1⟩]], 1, 0, 1, 1, 0, 0, {(0, 0)}⟩
      (by decide) (by decide) (by decide)).1,
   fun h => ((C1_missClassification ⟨1, 1, 1, .L⟩ (fun _ => 0)
      (initState ⟨1, 1, 1, .L⟩) 0 [] ⟨[[⟨0, true, 1⟩]], 1, 0, 1, 1, 0, 0, {(0, 0)}⟩
      (by decide) (by decide) (by decide)).2.2.1 h).1⟩

end CacheSim
